import Mathlib

/-!
Verification of the NOMAD upload-files storage subsystem (`nomad/files.py`)
against its natural-language specification.

The development shallowly embeds the storage layer:

* raw paths are Lean `String`s; the POSIX path helpers used by the source
  (`os.path.basename`, `os.path.dirname`, `os.path.join`, `str.split('/')`,
  `str.rstrip('/')`) are re-implemented structurally on `List Char`;
* the staging raw tree is a finite association list from raw path to file
  bytes (directories are implicit: a directory exists when some file lies
  beneath it); the OS directory-enumeration order (`os.listdir`, `os.walk`),
  which Python leaves unspecified, is modelled by the order of that list;
* Python exceptions are values of an error type: `KeyError`, `Restricted`,
  `FileNotFoundError` and failures of `assert` statements are distinguished,
  with the `assert not self.is_frozen` site modelled by its own constructor
  (the specification's *Frozen* error kind);
* zip files are association lists from member name to bytes; archive (.msg)
  containers are lists of entry ids with records.
-/

/-! ## Character-level path helpers (POSIX semantics used by the source) -/

/-- `str.startswith('/')` on the underlying characters. -/
def startsWithSlash (l : List Char) : Bool :=
  match l with
  | [] => false
  | c :: _ => c == '/'

/-- `'//' in path`: two consecutive `'/'` characters occur. -/
def hasDoubleSlash : List Char → Bool
  | [] => false
  | [_] => false
  | a :: b :: rest => (a == '/' && b == '/') || hasDoubleSlash (b :: rest)

/-- `path.split('/')` (Python `str.split` with an explicit separator:
`"".split('/') == ['']`, separators at the ends produce empty elements). -/
def splitSlash : List Char → List (List Char)
  | [] => [[]]
  | c :: rest =>
    match splitSlash rest with
    | [] => [[c]]
    | h :: t => if c == '/' then [] :: h :: t else (c :: h) :: t

/-- Characters of `os.path.basename`: everything after the last `'/'`. -/
def baseChars (l : List Char) : List Char :=
  (l.reverse.takeWhile (fun c => !(c == '/'))).reverse

/-- Characters of `os.path.dirname` (posixpath: the part before the last `'/'`,
with trailing slashes stripped unless the head is all slashes). -/
def dirChars (l : List Char) : List Char :=
  let rest := l.reverse.dropWhile (fun c => !(c == '/'))
  if rest.all (fun c => c == '/') then rest.reverse
  else (rest.dropWhile (fun c => c == '/')).reverse

def baseStr (p : String) : String := ⟨baseChars p.data⟩

def dirStr (p : String) : String := ⟨dirChars p.data⟩

/-- `path.endswith('/')` on the underlying characters. -/
def endsWithSlash (l : List Char) : Bool :=
  match l.getLast? with
  | some c => c == '/'
  | none => false

/-- `os.path.join(a, b)` (posixpath, two arguments). -/
def pathJoin (a b : String) : String :=
  if startsWithSlash b.data then b
  else if a = "" then b
  else if endsWithSlash a.data then a ++ b
  else a ++ "/" ++ b

/-- `path.rstrip('/')`. -/
def rstripSlash (s : String) : String :=
  ⟨(s.data.reverse.dropWhile (fun c => c == '/')).reverse⟩

/-- Lexicographic comparison of character lists by code point, the order that
Python `sorted` uses on `str`. -/
def lexLe : List Char → List Char → Bool
  | [], _ => true
  | _ :: _, [] => false
  | a :: as, b :: bs => if a = b then lexLe as bs else decide (a < b)

/-- The string order used for `sorted(...)` in the source. -/
def sLe (x y : String) : Prop := lexLe x.data y.data = true

instance : DecidableRel sLe := fun x y => by
  unfold sLe; infer_instance

/-- `sorted(...)` on strings. -/
def sortStr (l : List String) : List String := List.insertionSort sLe l

/-! ### Order facts about `lexLe` -/

theorem lexLe_refl (l : List Char) : lexLe l l = true := by
  induction l with
  | nil => rfl
  | cons a as ih => simp [lexLe, ih]

theorem lexLe_total (a b : List Char) : lexLe a b = true ∨ lexLe b a = true := by
  induction a generalizing b with
  | nil => left; rfl
  | cons x xs ih =>
    cases b with
    | nil => right; rfl
    | cons y ys =>
      by_cases hxy : x = y
      · subst hxy
        rcases ih ys with h | h
        · left; simp [lexLe, h]
        · right; simp [lexLe, h]
      · rcases lt_trichotomy x y with h | h | h
        · left; simp [lexLe, hxy, h]
        · exact absurd h hxy
        · right; simp [lexLe, Ne.symm hxy, h, not_lt_of_gt h]

theorem lexLe_antisymm {a b : List Char} (h₁ : lexLe a b = true) (h₂ : lexLe b a = true) :
    a = b := by
  induction a generalizing b with
  | nil =>
    cases b with
    | nil => rfl
    | cons y ys => simp [lexLe] at h₂
  | cons x xs ih =>
    cases b with
    | nil => simp [lexLe] at h₁
    | cons y ys =>
      by_cases hxy : x = y
      · subst hxy
        simp only [lexLe, if_pos rfl] at h₁ h₂
        rw [ih h₁ h₂]
      · simp only [lexLe, if_neg hxy, if_neg (Ne.symm hxy), decide_eq_true_eq] at h₁ h₂
        exact absurd h₂ (not_lt_of_gt h₁)

theorem lexLe_trans {a b c : List Char} (h₁ : lexLe a b = true) (h₂ : lexLe b c = true) :
    lexLe a c = true := by
  induction a generalizing b c with
  | nil => rfl
  | cons x xs ih =>
    cases b with
    | nil => simp [lexLe] at h₁
    | cons y ys =>
      cases c with
      | nil => simp [lexLe] at h₂
      | cons z zs =>
        by_cases hxy : x = y <;> by_cases hyz : y = z
        · subst hxy; subst hyz
          simp only [lexLe, if_pos rfl] at h₁ h₂ ⊢
          exact ih h₁ h₂
        · subst hxy
          simp only [lexLe, if_pos rfl] at h₁
          simp only [lexLe, if_neg hyz, decide_eq_true_eq] at h₂
          simp [lexLe, hyz, h₂]
        · subst hyz
          simp only [lexLe, if_neg hxy, decide_eq_true_eq] at h₁
          simp [lexLe, hxy, h₁]
        · simp only [lexLe, if_neg hxy, decide_eq_true_eq] at h₁
          simp only [lexLe, if_neg hyz, decide_eq_true_eq] at h₂
          have hxz : x < z := lt_trans h₁ h₂
          simp [lexLe, ne_of_lt hxz, hxz]

instance : IsTotal String sLe := ⟨fun a b => lexLe_total a.data b.data⟩

instance : IsTrans String sLe := ⟨fun _ _ _ => lexLe_trans⟩

instance : IsAntisymm String sLe :=
  ⟨fun a b h₁ h₂ => by
    cases a; cases b
    exact congrArg String.mk (lexLe_antisymm h₁ h₂)⟩

theorem sortStr_sorted (l : List String) : (sortStr l).Sorted sLe :=
  List.sorted_insertionSort sLe l

theorem sortStr_perm (l : List String) : List.Perm (sortStr l) l :=
  List.perm_insertionSort sLe l

theorem sortStr_eq_of_perm {l₁ l₂ : List String} (h : List.Perm l₁ l₂) :
    sortStr l₁ = sortStr l₂ :=
  List.eq_of_perm_of_sorted ((sortStr_perm l₁).trans (h.trans (sortStr_perm l₂).symm))
    (sortStr_sorted l₁) (sortStr_sorted l₂)

/-! ## `UploadFiles.raw_path_is_well_formed` (files.py lines 282-302) -/

/-- Translation of `UploadFiles.raw_path_is_well_formed`: the empty path is
well formed; otherwise the path may not start with `'/'`, may not contain
`'//'`, and no `'/'`-separated element may equal `'.'` or `'..'`. -/
def raw_path_is_well_formed (path : String) : Bool :=
  if path = "" then true
  else if startsWithSlash path.data || hasDoubleSlash path.data then false
  else (splitSlash path.data).all (fun e => !(e == ['.'] || e == ['.', '.']))

/-- The specification's wording of well-formedness (spec §8 item 1), stated
independently of the code's control flow. -/
def specWellFormed (s : String) : Prop :=
  s = "" ∨
    (¬ List.IsPrefix ['/'] s.data ∧ ¬ List.IsInfix ['/', '/'] s.data ∧
      ∀ e ∈ splitSlash s.data, e ≠ ['.'] ∧ e ≠ ['.', '.'])

theorem startsWithSlash_iff (l : List Char) :
    startsWithSlash l = true ↔ List.IsPrefix ['/'] l := by
  cases l with
  | nil =>
    simp only [startsWithSlash]
    constructor
    · intro h; cases h
    · intro h
      rcases h with ⟨t, ht⟩
      cases ht
  | cons c cs =>
    simp only [startsWithSlash, beq_iff_eq]
    constructor
    · rintro rfl
      exact ⟨cs, rfl⟩
    · rintro ⟨t, ht⟩
      cases ht
      rfl

theorem hasDoubleSlash_iff (l : List Char) :
    hasDoubleSlash l = true ↔ List.IsInfix ['/', '/'] l := by
  induction l with
  | nil =>
    constructor
    · intro h
      exact absurd h (by decide)
    · intro h
      have := List.sublist_nil.mp h.sublist
      cases this
  | cons a rest ih =>
    cases rest with
    | nil =>
      constructor
      · intro h
        simp [hasDoubleSlash] at h
      · intro h
        have hl := h.sublist.length_le
        simp at hl
    | cons b t =>
      simp only [hasDoubleSlash, Bool.or_eq_true, Bool.and_eq_true, beq_iff_eq]
      rw [ih]
      constructor
      · rintro (⟨rfl, rfl⟩ | h)
        · exact ⟨[], t, rfl⟩
        · exact List.infix_cons h
      · intro h
        rcases h with ⟨s, u, hsu⟩
        cases s with
        | nil =>
          simp only [List.nil_append, List.cons_append] at hsu
          injection hsu with h1 h2
          injection h2 with h3 h4
          left
          exact ⟨h1.symm, h3.symm⟩
        | cons x xs =>
          right
          simp only [List.cons_append] at hsu
          injection hsu with h1 h2
          exact ⟨xs, u, h2⟩

/-- Claim C4: for every string `s`, `raw_path_is_well_formed s` is true iff
`s` is empty, or `s` does not start with `'/'`, contains no `'//'`, and no
`'/'`-separated element of `s` equals `'.'` or `'..'`. -/
theorem raw_path_is_well_formed_iff (s : String) :
    raw_path_is_well_formed s = true ↔ specWellFormed s := by
  unfold raw_path_is_well_formed specWellFormed
  by_cases hs : s = ""
  · simp [hs]
  · simp only [if_neg hs]
    by_cases hbad : (startsWithSlash s.data || hasDoubleSlash s.data) = true
    · simp only [if_pos hbad]
      rcases Bool.or_eq_true _ _ |>.mp hbad with h | h
      · rw [startsWithSlash_iff] at h
        simp [hs, h]
      · rw [hasDoubleSlash_iff] at h
        simp [hs, h]
    · simp only [if_neg hbad]
      have hbad' := hbad
      simp only [Bool.or_eq_true, not_or] at hbad'
      rw [List.all_eq_true]
      constructor
      · intro h
        right
        refine ⟨?_, ?_, ?_⟩
        · rw [← startsWithSlash_iff]
          simp [hbad'.1]
        · rw [← hasDoubleSlash_iff]
          simp [hbad'.2]
        · intro e he
          have := h e he
          simpa using this
      · rintro (h | ⟨_, _, h⟩)
        · exact absurd h hs
        · intro e he
          have := h e he
          simpa using this

/-! ## `always_restricted` (files.py lines 81-88) -/

/-- Translation of `always_restricted`: the basename starts with `POTCAR`
and does not end with `.stripped`. (The Python function returns `True` or
`None`; `None` is falsy, so the result is modelled as `Bool`.) -/
def always_restricted (path : String) : Bool :=
  let b := baseChars path.data
  List.isPrefixOf "POTCAR".data b && !(List.isSuffixOf ".stripped".data b)

example : always_restricted "pot/POTCAR" = true := by decide
example : always_restricted "pot/POTCAR.stripped" = false := by decide
example : always_restricted "a/main.x" = false := by decide
example : raw_path_is_well_formed "" = true := by decide
example : raw_path_is_well_formed "a/b.txt" = true := by decide
example : raw_path_is_well_formed "a/" = true := by decide
example : raw_path_is_well_formed "/a" = false := by decide
example : raw_path_is_well_formed "a//b" = false := by decide
example : raw_path_is_well_formed "../etc/passwd" = false := by decide
example : raw_path_is_well_formed "a/./b" = false := by decide

/-! ## SHA-512 (FIPS 180-4), the semantics of `hashlib.sha512` used by
`StagingUploadFiles.calc_hash` -/

def M64 : Nat := 2 ^ 64

def rotr (n x : Nat) : Nat := ((x >>> n) ||| (x <<< (64 - n))) % M64

def bsig0 (x : Nat) : Nat := rotr 28 x ^^^ rotr 34 x ^^^ rotr 39 x

def bsig1 (x : Nat) : Nat := rotr 14 x ^^^ rotr 18 x ^^^ rotr 41 x

def ssig0 (x : Nat) : Nat := rotr 1 x ^^^ rotr 8 x ^^^ (x >>> 7)

def ssig1 (x : Nat) : Nat := rotr 19 x ^^^ rotr 61 x ^^^ (x >>> 6)

def chF (x y z : Nat) : Nat := (x &&& y) ^^^ ((x ^^^ (M64 - 1)) &&& z)

def majF (x y z : Nat) : Nat := (x &&& y) ^^^ (x &&& z) ^^^ (y &&& z)

def H512 : List Nat := [
  7640891576956012808, 13503953896175478587, 4354685564936845355,
  11912009170470909681, 5840696475078001361, 11170449401992604703,
  2270897969802886507, 6620516959819538809]

def K512 : List Nat := [
  4794697086780616226, 8158064640168781261, 13096744586834688815,
  16840607885511220156, 4131703408338449720, 6480981068601479193,
  10538285296894168987, 12329834152419229976, 15566598209576043074,
  1334009975649890238, 2608012711638119052, 6128411473006802146,
  8268148722764581231, 9286055187155687089, 11230858885718282805,
  13951009754708518548, 16472876342353939154, 17275323862435702243,
  1135362057144423861, 2597628984639134821, 3308224258029322869,
  5365058923640841347, 6679025012923562964, 8573033837759648693,
  10970295158949994411, 12119686244451234320, 12683024718118986047,
  13788192230050041572, 14330467153632333762, 15395433587784984357,
  489312712824947311, 1452737877330783856, 2861767655752347644,
  3322285676063803686, 5560940570517711597, 5996557281743188959,
  7280758554555802590, 8532644243296465576, 9350256976987008742,
  10552545826968843579, 11727347734174303076, 12113106623233404929,
  14000437183269869457, 14369950271660146224, 15101387698204529176,
  15463397548674623760, 17586052441742319658, 1182934255886127544,
  1847814050463011016, 2177327727835720531, 2830643537854262169,
  3796741975233480872, 4115178125766777443, 5681478168544905931,
  6601373596472566643, 7507060721942968483, 8399075790359081724,
  8693463985226723168, 9568029438360202098, 10144078919501101548,
  10430055236837252648, 11840083180663258601, 13761210420658862357,
  14299343276471374635, 14566680578165727644, 15097957966210449927,
  16922976911328602910, 17689382322260857208, 500013540394364858,
  748580250866718886, 1242879168328830382, 1977374033974150939,
  2944078676154940804, 3659926193048069267, 4368137639120453308,
  4836135668995329356, 5532061633213252278, 6448918945643986474,
  6902733635092675308, 7801388544844847127]

/-- Big-endian byte decomposition of a value into `n` bytes. -/
def toBytesBE (n v : Nat) : List Nat :=
  (List.range n).map (fun i => (v >>> (8 * (n - 1 - i))) % 256)

def bytesToWord (bs : List Nat) : Nat := bs.foldl (fun a b => a * 256 + b) 0

def chunksGo {α : Type} (n : Nat) : Nat → List α → List (List α)
  | _, [] => []
  | 0, l => [l]
  | fuel + 1, l => l.take n :: chunksGo n fuel (l.drop n)

/-- Split a list into consecutive chunks of length `n`. -/
def chunks {α : Type} (n : Nat) (l : List α) : List (List α) := chunksGo n l.length l

def scheduleStep (w : List Nat) : List Nat :=
  w ++ [(ssig1 (w.getD (w.length - 2) 0) + w.getD (w.length - 7) 0 +
        ssig0 (w.getD (w.length - 15) 0) + w.getD (w.length - 16) 0) % M64]

def schedule (ws : List Nat) : List Nat :=
  (List.range 64).foldl (fun w _ => scheduleStep w) ws

def compressStep (st : List Nat) (kw : Nat × Nat) : List Nat :=
  match st with
  | [a, b, c, d, e, f, g, h] =>
    let t1 := (h + bsig1 e + chF e f g + kw.1 + kw.2) % M64
    let t2 := (bsig0 a + majF a b c) % M64
    [(t1 + t2) % M64, a, b, c, (d + t1) % M64, e, f, g]
  | _ => st

def processBlock (h : List Nat) (block : List Nat) : List Nat :=
  let ws := schedule ((chunks 8 block).map bytesToWord)
  let st := (K512.zip ws).foldl compressStep h
  (h.zip st).map (fun p => (p.1 + p.2) % M64)

/-- Bytes of a message. -/
abbrev Bytes := List Nat

/-- SHA-512 digest (64 bytes) of a byte message, per FIPS 180-4; models the
`hashlib.sha512` incremental hashing performed by `calc_hash` (feeding the
file in 64 KiB chunks hashes exactly the concatenated bytes). -/
def sha512 (msg : Bytes) : Bytes :=
  let L := msg.length
  let padZeros := (239 - L % 128) % 128
  let padded := msg ++ 128 :: (List.replicate padZeros 0 ++ toBytesBE 16 (8 * L))
  let hs := (chunks 128 padded).foldl processBlock H512
  hs.foldr (fun w acc => toBytesBE 8 w ++ acc) []

set_option maxRecDepth 100000 in
example : sha512 [97, 98, 99] = [221, 175, 53, 161, 147, 97, 122, 186, 204, 65, 115, 73,
  174, 32, 65, 49, 18, 230, 250, 78, 137, 169, 126, 162, 10, 158, 238, 230, 75, 85, 211,
  154, 33, 146, 153, 42, 39, 79, 193, 168, 54, 186, 60, 35, 163, 254, 235, 189, 69, 77,
  68, 35, 100, 60, 232, 14, 42, 154, 201, 79, 165, 76, 164, 159] := by decide

/-- Modelled from the spec: `utils.make_websave` is not among the provided
sources; spec §4.3 only states that the SHA-512 digest is "websave-encoded".
We model the encoding as URL-safe base64 (alphabet `A..Za..z0..9-_`) of the
digest bytes. -/
def b64Char (n : Nat) : Char :=
  "ABCDEFGHIJKLMNOPQRSTUVWXYZabcdefghijklmnopqrstuvwxyz0123456789-_".data.getD n '.'

def b64Go : List Nat → List Char
  | [] => []
  | [b1] => [b64Char (b1 >>> 2), b64Char ((b1 &&& 3) <<< 4), '=', '=']
  | [b1, b2] => [b64Char (b1 >>> 2), b64Char (((b1 &&& 3) <<< 4) ||| (b2 >>> 4)),
      b64Char ((b2 &&& 15) <<< 2), '=']
  | b1 :: b2 :: b3 :: rest =>
      b64Char (b1 >>> 2) :: b64Char (((b1 &&& 3) <<< 4) ||| (b2 >>> 4)) ::
      b64Char (((b2 &&& 15) <<< 2) ||| (b3 >>> 6)) :: b64Char (b3 &&& 63) :: b64Go rest

def make_websave (digest : Bytes) : String := ⟨b64Go digest⟩

/-! ## Error surface

Python exceptions observable from the storage layer, by site:
`keyError` models `KeyError`, `restricted` models the `Restricted` exception,
`fileNotFound` models an uncaught `FileNotFoundError`, `frozen` models the
failure of the `assert not self.is_frozen` statement (the specification's
*Frozen* error kind), and `assertionError` models the failure of any other
`assert` (in the read paths, the `assert self.raw_path_is_well_formed(...)`
statements). -/

inductive FErr where
  | keyError
  | restricted
  | assertionError
  | frozen
  | fileNotFound
  deriving DecidableEq, Repr

/-- The per-entry metadata consumed by `pack` (fields of
`datamodel.EntryMetadata` that `files.py` reads). -/
structure EntryMetadata where
  calc_id : String
  mainfile : String
  with_embargo : Bool
  deriving DecidableEq, Repr

/-! ## Staging store (`StagingUploadFiles`) -/

/-- State of a staging upload: the `.frozen` sentinel, the `raw/` tree as a
finite map from raw path to bytes (list order models the unspecified OS
enumeration order), and the `archive/<calc_id>.msg` files. -/
structure StagingUploadFiles where
  frozen : Bool
  files : List (String × Bytes)
  archives : List (String × Bytes)
  deriving DecidableEq, Repr

/-- The default access predicate: `UploadFiles.__init__` declares
`is_authorized: Callable[[], bool] = lambda: False`. -/
def default_is_authorized : Bool := false

def fileNames (st : StagingUploadFiles) : List String := st.files.map Prod.fst

/-- `os.path.exists` under the raw directory: a path exists when a file is
stored at it or some file lies strictly below it. -/
def existsPath (files : List (String × Bytes)) (p : String) : Bool :=
  (List.lookup p files).isSome || files.any (fun q => List.isPrefixOf (p ++ "/").data q.1.data)

/-- `StagingUploadFiles.raw_file` (lines 426-430): asserts well-formedness,
checks the access predicate, then opens the file (`_file` turns
`FileNotFoundError`/`IsADirectoryError` into `KeyError`). -/
def staging_raw_file (st : StagingUploadFiles) (is_authorized : Bool) (file_path : String) :
    Except FErr Bytes :=
  if !raw_path_is_well_formed file_path then .error .assertionError
  else if !is_authorized then .error .restricted
  else
    match List.lookup file_path st.files with
    | some content => .ok content
    | none => .error .keyError

/-- `StagingUploadFiles.raw_file_size` (lines 432-436): asserts
well-formedness, checks the access predicate, then `os.stat`s the path; a
missing path raises `FileNotFoundError` (not converted to `KeyError` here).
`os.stat` on an existing directory is not modelled; no claim depends on it. -/
def staging_raw_file_size (st : StagingUploadFiles) (is_authorized : Bool)
    (file_path : String) : Except FErr Nat :=
  if !raw_path_is_well_formed file_path then .error .assertionError
  else if !is_authorized then .error .restricted
  else
    match List.lookup file_path st.files with
    | some content => .ok content.length
    | none => .error .fileNotFound

/-- `StagingUploadFiles.read_archive` (lines 456-464): the access predicate is
checked first; a missing archive file raises `KeyError`. -/
def staging_read_archive (st : StagingUploadFiles) (is_authorized : Bool) (calc_id : String) :
    Except FErr Bytes :=
  if !is_authorized then .error .restricted
  else
    match List.lookup calc_id st.archives with
    | some data => .ok data
    | none => .error .keyError

/-- `StagingUploadFiles.raw_file_manifest` (lines 704-710): all raw file
paths in `os.walk` order (path components joined with `/`). -/
def raw_file_manifest (st : StagingUploadFiles) : List String := st.files.map Prod.fst

/-- The sibling files considered by `calc_files`: the regular files of
the mainfile's directory whose basename differs from the mainfile's, in
`os.listdir` order (modelled by the order of the file list); each appended
as `os.path.join(calc_relative_dir, filename)`, which for well-formed stored
paths is the stored path itself. -/
def siblingsOf (st : StagingUploadFiles) (mainfile : String) : List String :=
  (st.files.map Prod.fst).filter
    (fun p => dirStr p == dirStr mainfile && !(baseStr p == baseStr mainfile))

/-- `StagingUploadFiles.calc_files` (lines 712-747). A missing mainfile
raises `KeyError`. Aux files are collected until, with `with_cutoff`, the
running count exceeds `cutoff` (the loop `break`s right after appending the
`(cutoff+1)`-st aux file, so up to `cutoff+1` are collected); subdirectory
entries do not increase the count. The collected aux files are then sorted.
`cutoff` stands for the configured `config.auxfile_cutoff` (the config module
is not among the provided sources). -/
def calc_files (st : StagingUploadFiles) (mainfile : String)
    (with_mainfile with_cutoff : Bool) (cutoff : Nat) : Except FErr (List String) :=
  if !existsPath st.files mainfile then .error .keyError
  else
    let sibs := siblingsOf st mainfile
    let aux := if with_cutoff then sibs.take (cutoff + 1) else sibs
    let sortedAux := sortStr aux
    .ok (if with_mainfile then mainfile :: sortedAux else sortedAux)

/-- The byte stream hashed by `calc_hash`: the contents of the given files,
concatenated in order. -/
def digestInput (st : StagingUploadFiles) (paths : List String) : Bytes :=
  paths.foldl (fun acc p => acc ++ ((List.lookup p st.files).getD [])) []

/-- `StagingUploadFiles.calc_hash` (lines 761-777): SHA-512 over the files of
`calc_files(mainfile)` (mainfile first, then sorted aux files, with the
default `with_cutoff=True`), websave-encoded. -/
def calc_hash (st : StagingUploadFiles) (mainfile : String) (cutoff : Nat) :
    Except FErr String :=
  match calc_files st mainfile true true cutoff with
  | .error e => .error e
  | .ok fs => .ok (make_websave (sha512 (digestInput st fs)))

/-! ## `StagingUploadFiles.add_rawfiles` (lines 469-580) -/

/-- One element of the merge source (an entry of `os.walk` over the extracted
or given directory, or the single given file): its path relative to the
source root, whether `os.path.islink` holds for it, and its content
(`none` for a directory). -/
structure SrcElem where
  relpath : String
  isLink : Bool
  content : Option Bytes
  deriving DecidableEq, Repr

/-- The merge step of `add_rawfiles` for one source element (lines 542-567):
links are skipped; an existing target file shadowed by an incoming directory
is removed; an incoming file replaces an existing file or an existing
directory subtree at the target path. -/
def mergeElem (files : List (String × Bytes)) (targetDir : String) (e : SrcElem) :
    List (String × Bytes) :=
  if e.isLink then files
  else
    let tpath := pathJoin targetDir e.relpath
    match e.content with
    | none => files.filter (fun q => !(q.1 == tpath))
    | some c =>
        files.filter
          (fun q => !(q.1 == tpath) && !(List.isPrefixOf (tpath ++ "/").data q.1.data))
        ++ [(tpath, c)]

/-- Lines 530-536: walking down `target_dir`, any chain component that exists
as a file is deleted before directories are created. -/
def clearTargetChain (files : List (String × Bytes)) (targetDir : String) :
    List (String × Bytes) :=
  ((splitSlash targetDir.data).foldl
    (fun acc comp =>
      let sub := pathJoin acc.2 (⟨comp⟩ : String)
      (acc.1.filter (fun q => !(q.1 == sub)), sub))
    (files, "")).1

/-- `StagingUploadFiles.add_rawfiles`: returns the result (`()` or the raised
error) together with the post-call staging state. The `assert not
self.is_frozen` comes first; then `assert raw_path_is_well_formed(target_dir)`
(the `assert os.path.exists(path)` on the OS source path is outside the
modelled state). On success the source elements are merged in walk order. -/
def add_rawfiles (st : StagingUploadFiles) (src : List SrcElem) (target_dir : String) :
    Except FErr Unit × StagingUploadFiles :=
  if st.frozen then (.error .frozen, st)
  else if !raw_path_is_well_formed target_dir then (.error .assertionError, st)
  else
    let files1 := clearTargetChain st.files target_dir
    let files2 := src.foldl (fun fs e => mergeElem fs target_dir e) files1
    (.ok (), ⟨st.frozen, files2, st.archives⟩)

/-- Iterated `add_rawfiles` calls against one staging store. -/
def add_rawfiles_iter (st : StagingUploadFiles) :
    List (List SrcElem × String) → List (Except FErr Unit) × StagingUploadFiles
  | [] => ([], st)
  | c :: cs =>
      let r := add_rawfiles st c.1 c.2
      let rest := add_rawfiles_iter r.2 cs
      (r.1 :: rest.1, rest.2)

/-! ## `pack` (lines 587-702) -/

/-- Phase 1.1 of `_pack_raw_files` (lines 671-680): collect, over the entries
without embargo whose mainfile was not collected yet, every file of
`calc_files(mainfile, with_cutoff=False)` that the `always_restricted`
predicate does not match. `public_files` is a dict keyed by file path; it is
modelled as a duplicate-free list in insertion order. A `KeyError` from
`calc_files` (missing mainfile) escapes to the caller of the phase. -/
def packPhaseA (st : StagingUploadFiles) :
    List EntryMetadata → List String → Except FErr (List String)
  | [], acc => .ok acc
  | cEnt :: rest, acc =>
      if cEnt.with_embargo then packPhaseA st rest acc
      else if acc.contains cEnt.mainfile then packPhaseA st rest acc
      else
        match calc_files st cEnt.mainfile true false 0 with
        | .error e => .error e
        | .ok fs =>
            packPhaseA st rest
              (fs.foldl
                (fun a f =>
                  if always_restricted f then a
                  else if a.contains f then a else a ++ [f])
                acc)

/-- Phase 1.2 of `_pack_raw_files` (lines 681-687): remove every embargoed
entry's mainfile from the collected public files. -/
def packPhaseB (entries : List EntryMetadata) (pub : List String) : List String :=
  entries.foldl
    (fun acc cEnt => if cEnt.with_embargo then acc.erase cEnt.mainfile else acc) pub

/-- The body of `_pack_raw_files` inside its `try` (lines 668-695): on a phase
error the zips have received no write yet (the write loops 1.3 and 2 come
after the phases), the exception is logged and both zips are closed, so the
run yields empty name sets plus the logged error; otherwise the public zip
receives exactly the resolved public files and the restricted zip every other
manifest file. -/
def pack_raw_files_run (entries : List EntryMetadata) (st : StagingUploadFiles) :
    List String × List String × Option FErr :=
  match packPhaseA st entries [] with
  | .error e => ([], [], some e)
  | .ok pubA =>
      let pub := packPhaseB entries pubA
      (pub, (raw_file_manifest st).filter (fun f => !pub.contains f), none)

/-- `_pack_raw_files` (lines 664-702): the two zip writers are created
*before* the `try` block, so a failure of `create_zipfile` propagates;
afterwards all exceptions are caught and logged. `create_zipfile` is the
function argument the source passes in (line 635/1141); a zip writer handle
carries no model state. -/
def pack_raw_files (entries : List EntryMetadata) (st : StagingUploadFiles)
    (create_zipfile : String → Except FErr Unit) :
    Except FErr (List String × List String × Option FErr) :=
  match create_zipfile "public" with
  | .error e => .error e
  | .ok _ =>
      match create_zipfile "restricted" with
      | .error e => .error e
      | .ok _ => .ok (pack_raw_files_run entries st)

/-- The `(entry_id, data)` stream of `_pack_archive_files.create_iterator`
(lines 645-653): entries with the given embargo flag, each with its staging
archive record, or an empty record (modelled as `[]`) when the archive file
is missing. -/
def packArchiveIter (st : StagingUploadFiles) (entries : List EntryMetadata)
    (with_embargo : Bool) : List (String × Bytes) :=
  entries.filterMap
    (fun cEnt =>
      if cEnt.with_embargo == with_embargo then
        some (cEnt.calc_id, (List.lookup cEnt.calc_id st.archives).getD [])
      else none)

/-- `_pack_archive_files` (lines 637-662): counts embargoed/public entries,
then writes the public and the restricted archive file inside a `try` that
catches and logs every exception; the counts are returned in either case.
`write_msgfile` is the function argument the source passes in. -/
def pack_archive_files (entries : List EntryMetadata) (st : StagingUploadFiles)
    (write_msgfile : String → Nat → List (String × Bytes) → Except FErr Unit) :
    (Nat × Nat) × Option FErr :=
  let restricted := (entries.filter (fun c => c.with_embargo)).length
  let pub := (entries.filter (fun c => !c.with_embargo)).length
  match write_msgfile "public" pub (packArchiveIter st entries false) with
  | .error e => ((restricted, pub), some e)
  | .ok _ =>
      match write_msgfile "restricted" restricted (packArchiveIter st entries true) with
      | .error e => ((restricted, pub), some e)
      | .ok _ => ((restricted, pub), none)

/-- The outcome of `pack` visible to its caller. -/
structure PackOutcome where
  archiveResult : Option ((Nat × Nat) × Option FErr)
  rawResult : Option (List String × List String × Option FErr)
  deriving DecidableEq, Repr

/-- `StagingUploadFiles.pack` (lines 587-635): asserts the upload is not yet
frozen (then freezes it), runs the archive partition unless `skip_archive`,
then the raw partition unless `skip_raw`. -/
def pack (st : StagingUploadFiles) (entries : List EntryMetadata)
    (write_msgfile : String → Nat → List (String × Bytes) → Except FErr Unit)
    (create_zipfile : String → Except FErr Unit)
    (skip_raw skip_archive : Bool) : Except FErr PackOutcome :=
  if st.frozen then .error .frozen
  else
    let archiveResult :=
      if skip_archive then none else some (pack_archive_files entries st write_msgfile)
    if skip_raw then .ok ⟨archiveResult, none⟩
    else
      match pack_raw_files entries st create_zipfile with
      | .error e => .error e
      | .ok r => .ok ⟨archiveResult, some r⟩

/-! ## Public store (`PublicUploadFiles`) -/

/-- Basic info about a file or folder, as cached by `_parse_content`
(`UploadPathInfo` NamedTuple, lines 224-232). -/
structure UploadPathInfo where
  path : String
  is_file : Bool
  size : Int
  access : String
  deriving DecidableEq, Repr

/-- State of a public upload: the two raw zip files and the two archive
containers, each `none` when the file does not exist on disk (reads then
raise `FileNotFoundError`, which the read loops swallow). Zip members are
listed in central-directory order; archive containers are modelled by their
entry ids and records. -/
structure PublicUploadFiles where
  pubZip : Option (List (String × Bytes))
  restrZip : Option (List (String × Bytes))
  archivePub : Option (List (String × Bytes))
  archiveRestr : Option (List (String × Bytes))
  deriving DecidableEq, Repr

/-- Member lookup in a zip: `zipfile` builds `NameToInfo` in namelist order,
so a duplicated name resolves to its last occurrence. -/
def zfind (z : List (String × Bytes)) (name : String) : Option Bytes :=
  z.foldl (fun acc kv => if kv.1 == name then some kv.2 else acc) none

def zfindO : Option (List (String × Bytes)) → String → Option Bytes
  | none, _ => none
  | some z, n => zfind z n

/-- `PublicUploadFiles.raw_file` (lines 1026-1051): try the public then the
restricted zip; a hit in the restricted zip, or a hit on an
`always_restricted` name in either zip, requires the access predicate, else
`Restricted` is raised (uncaught); a miss in both raises `KeyError`. -/
def public_raw_file (store : PublicUploadFiles) (is_authorized : Bool)
    (file_path : String) : Except FErr Bytes :=
  match zfindO store.pubZip file_path with
  | some c =>
      if always_restricted file_path && !is_authorized then .error .restricted else .ok c
  | none =>
      match zfindO store.restrZip file_path with
      | some c => if !is_authorized then .error .restricted else .ok c
      | none => .error .keyError

/-- `PublicUploadFiles.raw_file_size` (lines 1053-1067), same gate as
`raw_file`, returning the member's size. -/
def public_raw_file_size (store : PublicUploadFiles) (is_authorized : Bool)
    (file_path : String) : Except FErr Nat :=
  match zfindO store.pubZip file_path with
  | some c =>
      if always_restricted file_path && !is_authorized then .error .restricted
      else .ok c.length
  | none =>
      match zfindO store.restrZip file_path with
      | some c => if !is_authorized then .error .restricted else .ok c.length
      | none => .error .keyError

/-- `PublicUploadFiles.read_archive` (lines 1079-1096) with the default
`access=None`: the public then the restricted archive is probed; a hit in the
restricted archive requires the access predicate. The returned reader is
modelled by the access bucket that was opened. -/
def public_read_archive (store : PublicUploadFiles) (is_authorized : Bool)
    (calc_id : String) : Except FErr String :=
  let tryRestr : Except FErr String :=
    match store.archiveRestr with
    | some arch =>
        if (List.lookup calc_id arch).isSome then
          if !is_authorized then .error .restricted else .ok "restricted"
        else .error .keyError
    | none => .error .keyError
  match store.archivePub with
  | some arch => if (List.lookup calc_id arch).isSome then .ok "public" else tryRestr
  | none => tryRestr

/-! ### `_parse_content` (lines 938-970) -/

abbrev DirContent := List (String × UploadPathInfo)

abbrev Dirs := List (String × DirContent)

/-- Assignment `m[k] = v` on a Python dict: overwrite in place, or append. -/
def aset {α : Type} (m : List (String × α)) (k : String) (v : α) : List (String × α) :=
  if m.any (fun kv => kv.1 == k) then m.map (fun kv => if kv.1 == k then (k, v) else kv)
  else m ++ [(k, v)]

/-- One iteration of the parent-directory loop of `_parse_content` (lines
952-960): enter the directory into its parent's content map unless already
present (`setdefault` semantics), and extend the running sub-path. -/
def dirStepContent (access : String) (ds : Dirs) (sub : String) (comp : List Char) :
    DirContent :=
  let content := (List.lookup sub ds).getD []
  if (List.lookup (⟨comp⟩ : String) content).isSome then content
  else content ++ [(⟨comp⟩, ⟨pathJoin sub ⟨comp⟩, false, -1, access⟩)]

def dirStep (access : String) (acc : Dirs × String) (comp : List Char) : Dirs × String :=
  (aset acc.1 acc.2 (dirStepContent access acc.1 acc.2 comp), pathJoin acc.2 ⟨comp⟩)

/-- Processing of one zip member name by `_parse_content`: every parent
directory is entered into the cache (`setdefault`, never overwriting an
existing entry), then the file itself is assigned into its directory's
content map. -/
def addPath (dirs : Dirs) (access : String) (path : String) (size : Int) : Dirs :=
  let file_name := baseStr path
  let directory_path := dirStr path
  let step := (splitSlash directory_path.data).foldl (dirStep access) (dirs, "")
  let dirs2 := step.1
  if file_name == "" then dirs2
  else
    let dcontent := (List.lookup directory_path dirs2).getD []
    aset dirs2 directory_path (aset dcontent file_name ⟨path, true, size, access⟩)

def parseOne (dirs : Dirs) (access : String) (z : List (String × Bytes)) : Dirs :=
  z.foldl (fun ds nc => addPath ds access nc.1 (Int.ofNat nc.2.length)) dirs

/-- `_parse_content`: the public zip is parsed first, then the restricted
zip; a missing zip file contributes nothing (`FileNotFoundError: pass`). -/
def parse_content (store : PublicUploadFiles) : Dirs :=
  let ds :=
    match store.pubZip with
    | some z => parseOne [] "public" z
    | none => []
  match store.restrZip with
  | some z => parseOne ds "restricted" z
  | none => ds

/-- The pair order used by `sorted(directory_content.items())`; keys in a
dict are distinct, so comparing keys decides the order. -/
def keyLe (a b : String × UploadPathInfo) : Prop := sLe a.1 b.1

instance : DecidableRel keyLe := fun a b => by
  unfold keyLe; infer_instance

def sortByKey (c : DirContent) : DirContent := List.insertionSort keyLe c

/-- `PublicUploadFiles.raw_directory_list` (lines 1007-1020). The Python
generator recurses on the `path` field of directory entries and does not
terminate on the degenerate self-referential root entry, so the model takes
a fuel parameter; exhausted fuel yields no further elements. -/
def public_raw_directory_list (fuel : Nat) (store : PublicUploadFiles)
    (is_authorized : Bool) (path : String) (recursive files_only : Bool) :
    List UploadPathInfo :=
  match fuel with
  | 0 => []
  | fuel + 1 =>
    if !raw_path_is_well_formed path then []
    else
      let dirs := parse_content store
      let p := rstripSlash path
      match List.lookup p dirs with
      | none => []
      | some content =>
          (sortByKey content).flatMap
            (fun kv =>
              (if (kv.2.access == "public" || is_authorized) &&
                  (!files_only || kv.2.is_file) then [kv.2] else []) ++
              (if recursive && !kv.2.is_file then
                public_raw_directory_list fuel store is_authorized kv.2.path
                  recursive files_only
              else []))

/-- `PublicUploadFiles.raw_path_exists` (lines 972-990). -/
def public_raw_path_exists (store : PublicUploadFiles) (is_authorized : Bool)
    (path : String) : Bool :=
  if !raw_path_is_well_formed path then false
  else
    let dirs := parse_content store
    let explicit_directory_path := endsWithSlash path.data
    let p := rstripSlash path
    let base_name := baseStr p
    let directory_path := dirStr p
    match List.lookup directory_path dirs with
    | none => false
    | some directory_content =>
        if base_name == "" then true
        else
          match List.lookup base_name directory_content with
          | none => false
          | some info =>
              if info.access == "public" || is_authorized then
                if explicit_directory_path && info.is_file then false else true
              else false

/-- `PublicUploadFiles.raw_path_is_file` (lines 992-1005); note the
truthiness test `if directory_content and ...`: an empty content dict makes
the whole condition false. -/
def public_raw_path_is_file (store : PublicUploadFiles) (is_authorized : Bool)
    (path : String) : Bool :=
  if !raw_path_is_well_formed path then false
  else
    let dirs := parse_content store
    let base_name := baseStr path
    let directory_path := dirStr path
    if base_name == "" then false
    else
      match List.lookup directory_path dirs with
      | none => false
      | some directory_content =>
          if directory_content.isEmpty then false
          else
            match List.lookup base_name directory_content with
            | none => false
            | some info =>
                if info.access == "public" || is_authorized then info.is_file else false

/-! ## Supporting lemmas -/

instance {e a : Type} [DecidableEq e] [DecidableEq a] : DecidableEq (Except e a) := fun x y =>
  match x, y with
  | .ok v, .ok w => if h : v = w then .isTrue (by rw [h]) else .isFalse (by simp [h])
  | .error v, .error w => if h : v = w then .isTrue (by rw [h]) else .isFalse (by simp [h])
  | .ok _, .error _ => .isFalse (by simp)
  | .error _, .ok _ => .isFalse (by simp)

theorem zfind_not_mem {z : List (String × Bytes)} {n : String}
    (h : n ∉ z.map Prod.fst) : zfind z n = none := by
  unfold zfind
  induction z with
  | nil => rfl
  | cons kv t ih =>
    simp only [List.map_cons, List.mem_cons, not_or] at h
    rw [List.foldl_cons, if_neg (by simp [Ne.symm h.1])]
    exact ih h.2

/-- Well-formedness of every member name of the two raw zips; `pack` only
writes well-formed raw paths, and the claims about malformed paths assume a
store in this shape. -/
def zipNamesWellFormed (store : PublicUploadFiles) : Prop :=
  (∀ z, store.pubZip = some z → ∀ n ∈ z.map Prod.fst, raw_path_is_well_formed n = true) ∧
  (∀ z, store.restrZip = some z → ∀ n ∈ z.map Prod.fst, raw_path_is_well_formed n = true)

/-! ## Claim C5 -/

/-- Claim C5: once the `.frozen` sentinel exists on a staging store, every
subsequent `add_rawfiles` call fails with the *Frozen* error (the
`assert not self.is_frozen` at the top of `add_rawfiles`) and leaves the
staging state — in particular the raw tree — unchanged; this holds for every
later call in any sequence of calls. -/
theorem C5_freeze_monotonic (st : StagingUploadFiles) (h : st.frozen = true) :
    (∀ src target_dir, add_rawfiles st src target_dir = (.error .frozen, st)) ∧
    (∀ calls, (add_rawfiles_iter st calls).2 = st ∧
      ∀ r ∈ (add_rawfiles_iter st calls).1, r = .error .frozen) := by
  have h1 : ∀ src target_dir, add_rawfiles st src target_dir = (.error .frozen, st) := by
    intro src tgt
    unfold add_rawfiles
    simp [h]
  refine ⟨h1, ?_⟩
  intro calls
  induction calls with
  | nil => exact ⟨rfl, by intro r hr; cases hr⟩
  | cons c cs ih =>
    simp only [add_rawfiles_iter, h1 c.1 c.2]
    refine ⟨ih.1, ?_⟩
    intro r hr
    rcases List.mem_cons.mp hr with hr | hr
    · exact hr
    · exact ih.2 r hr

theorem C5_freeze_monotonic_witness :
    add_rawfiles ⟨true, [("a/b", [1])], []⟩ [⟨"c", false, some [2]⟩] "" =
      (.error .frozen, ⟨true, [("a/b", [1])], []⟩) :=
  (C5_freeze_monotonic ⟨true, [("a/b", [1])], []⟩ rfl).1 [⟨"c", false, some [2]⟩] ""

/-! ## Claim C7 -/

/-- Claim C7 counterexample: `raw_file` on a *staging* store with the
malformed path `"../etc/passwd"` fails the well-formedness `assert`
(an `AssertionError`) — an error, not the not-found (`KeyError`) result the
claim requires; the access predicate is not even consulted. -/
theorem C7_counterexample :
    staging_raw_file ⟨false, [], []⟩ true "../etc/passwd" = .error .assertionError ∧
    FErr.assertionError ≠ FErr.keyError := by decide

/-- Claim C7 as amended: for every malformed raw path, `raw_file` on a
*public* store returns the not-found result (`KeyError`) — the path cannot
name a zip member when member names are well formed, and the lookup consults
only the upload's own zip files; `raw_file` on a *staging* store instead
fails its well-formedness `assert` before touching the tree or the access
predicate (the result is the same for every staging state). -/
theorem C7_malformed_not_found (p : String) (hp : raw_path_is_well_formed p = false) :
    (∀ st auth, staging_raw_file st auth p = .error .assertionError) ∧
    (∀ store auth, zipNamesWellFormed store →
      public_raw_file store auth p = .error .keyError) := by
  constructor
  · intro st auth
    unfold staging_raw_file
    simp [hp]
  · intro store auth hz
    unfold public_raw_file
    have hpub : zfindO store.pubZip p = none := by
      cases hpz : store.pubZip with
      | none => rfl
      | some z =>
        refine zfind_not_mem ?_
        intro hmem
        have := hz.1 z hpz p hmem
        rw [this] at hp
        cases hp
    have hres : zfindO store.restrZip p = none := by
      cases hpz : store.restrZip with
      | none => rfl
      | some z =>
        refine zfind_not_mem ?_
        intro hmem
        have := hz.2 z hpz p hmem
        rw [this] at hp
        cases hp
    rw [hpub, hres]

theorem C7_malformed_not_found_witness :
    public_raw_file ⟨some [("a", [1])], none, none, none⟩ false "../etc/passwd" =
      .error .keyError :=
  (C7_malformed_not_found "../etc/passwd" (by decide)).2
    ⟨some [("a", [1])], none, none, none⟩ false
    ⟨by rintro z hz n hn; cases hz; revert hn; revert n; decide,
     by rintro z hz; cases hz⟩

/-! ## Claim C10 -/

/-- Claim C10 counterexample: with the default access predicate
(`lambda: False`), `raw_file` on a malformed path raises `AssertionError`,
not `Restricted` — so "raises Restricted for every path" fails. -/
theorem C10_counterexample :
    staging_raw_file ⟨false, [], []⟩ default_is_authorized ".." = .error .assertionError ∧
    FErr.assertionError ≠ FErr.restricted := by decide

/-- Claim C10 as amended: a staging store constructed without an access
predicate defaults to `lambda: False`, so `raw_file` and `raw_file_size`
raise `Restricted` for every *well-formed* path (for malformed paths the
preceding well-formedness `assert` fails instead), and `read_archive`
raises `Restricted` for every entry id. -/
theorem C10_default_denies (st : StagingUploadFiles) (p calc_id : String)
    (hp : raw_path_is_well_formed p = true) :
    staging_raw_file st default_is_authorized p = .error .restricted ∧
    staging_raw_file_size st default_is_authorized p = .error .restricted ∧
    staging_read_archive st default_is_authorized calc_id = .error .restricted := by
  unfold staging_raw_file staging_raw_file_size staging_read_archive default_is_authorized
  simp [hp]

theorem C10_default_denies_witness :
    staging_raw_file ⟨false, [("a", [1])], []⟩ default_is_authorized "a" =
      .error .restricted :=
  (C10_default_denies ⟨false, [("a", [1])], []⟩ "a" "c" (by decide)).1

/-! ## Claim C8 -/

/-- Claim C8 counterexample: with `aux_file_cutoff = 1` and three aux
candidates next to the mainfile, `calc_files(..., with_cutoff=True)` returns
*two* aux files (`d/a`, `d/b`): the loop breaks only after the running count
*exceeds* the cutoff, so up to `cutoff + 1` aux files are collected — the
number of aux files is not capped at the configured cutoff. -/
theorem C8_counterexample :
    calc_files ⟨false, [("d/m", [0]), ("d/a", [1]), ("d/b", [2]), ("d/c", [3])], []⟩
      "d/m" true true 1 = .ok ["d/m", "d/a", "d/b"] ∧ 2 > 1 := by decide

/-- Claim C8 as amended: for an existing mainfile, `calc_files` returns the
mainfile first (when `with_mainfile`) followed by the sibling files of its
directory sorted lexicographically; with `with_cutoff` the aux files are the
first `cutoff + 1` candidates in directory-enumeration order (sorted), so
their number is capped at `cutoff + 1`, not at `cutoff`. -/
theorem C8_calc_files_shape (st : StagingUploadFiles) (m : String) (cutoff : Nat)
    (hm : existsPath st.files m = true) :
    (∃ l, calc_files st m true false cutoff = .ok (m :: l) ∧
      List.Perm l (siblingsOf st m) ∧ l.Sorted sLe) ∧
    (∃ l, calc_files st m true true cutoff = .ok (m :: l) ∧
      List.Perm l ((siblingsOf st m).take (cutoff + 1)) ∧ l.Sorted sLe ∧
      l.length ≤ cutoff + 1) ∧
    (∃ l, calc_files st m false false cutoff = .ok l ∧
      List.Perm l (siblingsOf st m) ∧ l.Sorted sLe) := by
  unfold calc_files
  simp only [hm, Bool.not_true, Bool.false_eq_true, if_false, if_true]
  refine ⟨⟨sortStr (siblingsOf st m), by simp, sortStr_perm _, sortStr_sorted _⟩,
    ⟨sortStr ((siblingsOf st m).take (cutoff + 1)), by simp, sortStr_perm _,
      sortStr_sorted _, ?_⟩,
    ⟨sortStr (siblingsOf st m), by simp, sortStr_perm _, sortStr_sorted _⟩⟩
  calc (sortStr ((siblingsOf st m).take (cutoff + 1))).length
      = ((siblingsOf st m).take (cutoff + 1)).length := (sortStr_perm _).length_eq
    _ ≤ cutoff + 1 := List.length_take_le _ _

theorem C8_calc_files_shape_witness :
    ∃ l, calc_files ⟨false, [("d/m", [0]), ("d/a", [1])], []⟩ "d/m" true false 3 =
        .ok ("d/m" :: l) ∧
      List.Perm l (siblingsOf ⟨false, [("d/m", [0]), ("d/a", [1])], []⟩ "d/m") ∧
      l.Sorted sLe :=
  (C8_calc_files_shape ⟨false, [("d/m", [0]), ("d/a", [1])], []⟩ "d/m" 3 (by decide)).1

/-! ## Claim C6 -/

/-- Claim C6 counterexample: `_pack_raw_files` creates its two zip writers
*before* its `try` block (lines 665-666), so an exception raised there —
inside the raw-partition step — propagates through `pack` to the caller
instead of being logged: with a `create_zipfile` that raises (e.g. an OS
error opening the target file), `pack` fails. -/
theorem C6_counterexample :
    pack ⟨false, [], []⟩ [] (fun _ _ _ => .ok ()) (fun _ => .error .fileNotFound)
      false false = .error .fileNotFound := by decide

/-- Claim C6 as amended: any exception raised inside the archive-partition
step is logged and does not propagate (for *every* behaviour of the
`write_msgfile` argument, `pack` completes and records at most a logged
error), and the raw partition is attempted regardless of a logged
archive-partition failure, with a result independent of `write_msgfile`;
only a failure while *creating* a zip writer — the first two statements of
the raw-partition step, before its `try` — propagates to the caller. -/
theorem C6_pack_failure_containment (st : StagingUploadFiles)
    (entries : List EntryMetadata)
    (write_msgfile : String → Nat → List (String × Bytes) → Except FErr Unit)
    (create_zipfile : String → Except FErr Unit)
    (hfr : st.frozen = false)
    (hcz : ∀ a, create_zipfile a = .ok ()) :
    pack st entries write_msgfile create_zipfile false false =
      .ok ⟨some (pack_archive_files entries st write_msgfile),
           some (pack_raw_files_run entries st)⟩ ∧
    (∀ e : FErr, pack st entries (fun _ _ _ => .error e) create_zipfile false false =
      .ok ⟨some ⟨⟨(entries.filter (fun c => c.with_embargo)).length,
                  (entries.filter (fun c => !c.with_embargo)).length⟩, some e⟩,
           some (pack_raw_files_run entries st)⟩) := by
  have hraw : pack_raw_files entries st create_zipfile =
      .ok (pack_raw_files_run entries st) := by
    unfold pack_raw_files
    rw [hcz "public", hcz "restricted"]
  constructor
  · unfold pack
    rw [hraw]
    simp [hfr]
  · intro e
    unfold pack
    rw [hraw]
    simp [hfr]
    unfold pack_archive_files
    rfl

theorem C6_pack_failure_containment_witness :
    pack ⟨false, [("a", [1])], []⟩ [] (fun _ _ _ => .error .keyError) (fun _ => .ok ())
      false false =
      .ok ⟨some (pack_archive_files [] ⟨false, [("a", [1])], []⟩
            (fun _ _ _ => .error .keyError)),
           some (pack_raw_files_run [] ⟨false, [("a", [1])], []⟩)⟩ :=
  (C6_pack_failure_containment ⟨false, [("a", [1])], []⟩ []
    (fun _ _ _ => .error .keyError) (fun _ => .ok ()) rfl (fun _ => rfl)).1

/-! ## Claim C9 -/

theorem lookup_eq_some_iff {α : Type} {l : List (String × α)} {k : String} {v : α}
    (hnd : (l.map Prod.fst).Nodup) : List.lookup k l = some v ↔ (k, v) ∈ l := by
  induction l with
  | nil => simp [List.lookup]
  | cons kv t ih =>
    cases kv with
    | mk k1 v1 =>
      simp only [List.map_cons, List.nodup_cons] at hnd
      by_cases hk : k = k1
      · subst hk
        simp only [List.lookup, beq_self_eq_true, Option.some.injEq, List.mem_cons,
          Prod.mk.injEq, true_and]
        constructor
        · intro h; left; exact h.symm
        · rintro (h | h)
          · exact h.symm
          · exact absurd (List.mem_map_of_mem Prod.fst h) hnd.1
      · have hbeq : (k == k1) = false := by simp [hk]
        simp only [List.lookup, hbeq, List.mem_cons, Prod.mk.injEq]
        rw [ih hnd.2]
        constructor
        · intro h; right; exact h
        · rintro (⟨h1, _⟩ | h)
          · exact absurd h1 hk
          · exact h

theorem lookup_perm {α : Type} {l₁ l₂ : List (String × α)}
    (hnd : (l₁.map Prod.fst).Nodup) (hp : List.Perm l₁ l₂) (k : String) :
    List.lookup k l₁ = List.lookup k l₂ := by
  have hnd₂ : (l₂.map Prod.fst).Nodup := ((hp.map Prod.fst).nodup_iff).mp hnd
  cases h₁ : List.lookup k l₁ with
  | some v =>
    exact ((lookup_eq_some_iff hnd₂).mpr (hp.subset ((lookup_eq_some_iff hnd).mp h₁))).symm
  | none =>
    cases h₂ : List.lookup k l₂ with
    | some v =>
      have := (lookup_eq_some_iff hnd).mpr (hp.symm.subset ((lookup_eq_some_iff hnd₂).mp h₂))
      rw [h₁] at this
      cases this
    | none => rfl

theorem digestInput_congr {st st' : StagingUploadFiles}
    (h : ∀ p, List.lookup p st'.files = List.lookup p st.files) (paths : List String) :
    digestInput st' paths = digestInput st paths := by
  unfold digestInput
  congr 1
  funext acc p
  rw [h p]

set_option maxRecDepth 100000 in
/-- Claim C9 counterexample: with `aux_file_cutoff = 1` and three aux
candidates, the cutoff truncation keeps the first two candidates in
directory-enumeration order, so reordering the files on disk changes which
aux files are hashed: the two stores hold identical file sets (the file
lists are permutations of each other), yet `calc_hash` differs. -/
theorem C9_counterexample :
    List.Perm [("d/m", ([0] : Bytes)), ("d/c", [3]), ("d/b", [2]), ("d/a", [1])]
      [("d/m", [0]), ("d/a", [1]), ("d/b", [2]), ("d/c", [3])] ∧
    calc_hash ⟨false, [("d/m", [0]), ("d/a", [1]), ("d/b", [2]), ("d/c", [3])], []⟩
        "d/m" 1 ≠
      calc_hash ⟨false, [("d/m", [0]), ("d/c", [3]), ("d/b", [2]), ("d/a", [1])], []⟩
        "d/m" 1 := by decide

/-- Claim C9 as amended: `calc_hash(mainfile)` is the websave-encoded SHA-512
digest of the mainfile's bytes followed by each aux file's bytes in the order
returned by `calc_files`, and it is invariant under reordering of the files
on disk *provided* the mainfile's directory holds at most `cutoff + 1` aux
candidates (`calc_hash` calls `calc_files` with `with_cutoff=True`, and
beyond `cutoff + 1` candidates the truncated aux set depends on the
enumeration order). -/
theorem C9_calc_hash (st st' : StagingUploadFiles) (m : String) (cutoff : Nat)
    (hnd : (st.files.map Prod.fst).Nodup)
    (hperm : List.Perm st'.files st.files)
    (hm : (List.lookup m st.files).isSome = true)
    (hsib : (siblingsOf st m).length ≤ cutoff + 1) :
    (∃ aux, calc_files st m true true cutoff = .ok (m :: aux) ∧
      calc_hash st m cutoff =
        .ok (make_websave (sha512 (digestInput st (m :: aux))))) ∧
    calc_hash st m cutoff = calc_hash st' m cutoff := by
  have hm' : existsPath st.files m = true := by
    unfold existsPath
    rw [hm]
    rfl
  have hnd' : (st'.files.map Prod.fst).Nodup := ((hperm.map Prod.fst).nodup_iff).mpr hnd
  have hlk : ∀ k, List.lookup k st'.files = List.lookup k st.files := fun k =>
    lookup_perm hnd' hperm k
  have hm'' : existsPath st'.files m = true := by
    unfold existsPath
    rw [hlk m, hm]
    rfl
  have hsibperm : List.Perm (siblingsOf st' m) (siblingsOf st m) := by
    unfold siblingsOf
    exact (hperm.map Prod.fst).filter _
  have htake : (siblingsOf st m).take (cutoff + 1) = siblingsOf st m :=
    List.take_of_length_le hsib
  have htake' : (siblingsOf st' m).take (cutoff + 1) = siblingsOf st' m :=
    List.take_of_length_le (hsibperm.length_eq ▸ hsib)
  have hsorteq : sortStr (siblingsOf st' m) = sortStr (siblingsOf st m) :=
    sortStr_eq_of_perm hsibperm
  have hcf : calc_files st m true true cutoff =
      .ok (m :: sortStr (siblingsOf st m)) := by
    unfold calc_files
    rw [hm']
    simp [htake]
  have hcf' : calc_files st' m true true cutoff =
      .ok (m :: sortStr (siblingsOf st m)) := by
    unfold calc_files
    rw [hm'']
    simp [htake', hsorteq]
  constructor
  · refine ⟨sortStr (siblingsOf st m), hcf, ?_⟩
    unfold calc_hash
    rw [hcf]
  · unfold calc_hash
    rw [hcf, hcf']
    simp only [digestInput_congr hlk]

theorem C9_calc_hash_witness :
    calc_hash ⟨false, [("d/m", [7]), ("d/a", [5])], []⟩ "d/m" 3 =
      calc_hash ⟨false, [("d/a", [5]), ("d/m", [7])], []⟩ "d/m" 3 :=
  (C9_calc_hash ⟨false, [("d/m", [7]), ("d/a", [5])], []⟩
    ⟨false, [("d/a", [5]), ("d/m", [7])], []⟩ "d/m" 3 (by decide) (by decide)
    (by decide) (by decide)).2

/-! ## Good raw-file names and path decomposition

A stored raw-file path is *good* when it is well formed, nonempty, and does
not end in `'/'`; every path that `add_rawfiles` can place in the raw tree
and every member name `pack` writes is of this shape. For good names,
`os.path.join(dirname p, basename p) = p` and the decomposition is unique. -/

def goodName (p : String) : Prop :=
  raw_path_is_well_formed p = true ∧ p ≠ "" ∧ endsWithSlash p.data = false

instance : DecidablePred goodName := fun p => by
  unfold goodName; infer_instance

/-- The shape of a directory path produced by `os.path.dirname` on a good
name: empty, or nonempty with no leading and no trailing slash. -/
def cleanDir (d : String) : Prop :=
  d = "" ∨ (d ≠ "" ∧ startsWithSlash d.data = false ∧ endsWithSlash d.data = false)

theorem dropWhile_head_false {q : Char → Bool} :
    ∀ {r : List Char} {c : Char} {t : List Char}, r.dropWhile q = c :: t → q c = false := by
  intro r
  induction r with
  | nil => intro c t h; cases h
  | cons x xs ih =>
    intro c t h
    rw [List.dropWhile_cons] at h
    by_cases hx : q x = true
    · rw [if_pos hx] at h
      exact ih h
    · rw [if_neg hx] at h
      injection h with h1 _
      subst h1
      exact Bool.eq_false_iff.mpr hx

theorem wf_no_slashes {p : String} (hwf : raw_path_is_well_formed p = true) (hne : p ≠ "") :
    startsWithSlash p.data = false ∧ hasDoubleSlash p.data = false := by
  unfold raw_path_is_well_formed at hwf
  rw [if_neg hne] at hwf
  by_cases hb : (startsWithSlash p.data || hasDoubleSlash p.data) = true
  · rw [if_pos hb] at hwf; cases hwf
  · simp only [Bool.or_eq_true, not_or] at hb
    exact ⟨Bool.eq_false_iff.mpr hb.1, Bool.eq_false_iff.mpr hb.2⟩

theorem data_ne_nil_of_ne_empty {p : String} (h : p ≠ "") : p.data ≠ [] := by
  intro hd
  apply h
  apply String.ext
  rw [hd]

theorem mk_ne_empty_of_ne_nil {l : List Char} (h : l ≠ []) : (⟨l⟩ : String) ≠ "" := by
  intro hc
  exact h (congrArg String.data hc)

/-- On a good name, `os.path.join` of dirname and basename restores the path;
the basename is nonempty and slash-free, and the dirname is clean. -/
theorem goodName_split {p : String} (hp : goodName p) :
    pathJoin (dirStr p) (baseStr p) = p ∧
    baseChars p.data ≠ [] ∧ (∀ c ∈ baseChars p.data, c ≠ '/') ∧ cleanDir (dirStr p) := by
  obtain ⟨hwf, hne, hend⟩ := hp
  obtain ⟨hsw, hds⟩ := wf_no_slashes hwf hne
  have hbd : (p.data.reverse.takeWhile (fun c => !(c == '/'))) ++
      (p.data.reverse.dropWhile (fun c => !(c == '/'))) = p.data.reverse :=
    List.takeWhile_append_dropWhile _ _
  have hbase_no_slash : ∀ c ∈ baseChars p.data, c ≠ '/' := by
    intro c hc
    have hc' : c ∈ p.data.reverse.takeWhile (fun ch => !(ch == '/')) := by
      unfold baseChars at hc
      exact List.mem_reverse.mp hc
    have := List.mem_takeWhile_imp hc'
    simpa using this
  cases hd : p.data.reverse.dropWhile (fun c => !(c == '/')) with
  | nil =>
    have hb : p.data.reverse.takeWhile (fun c => !(c == '/')) = p.data.reverse := by
      rw [hd, List.append_nil] at hbd
      exact hbd
    have hbase : baseStr p = p := by
      unfold baseStr baseChars
      rw [hb, List.reverse_reverse]
    have hdir : dirStr p = "" := by
      unfold dirStr dirChars
      rw [hd]
      rfl
    refine ⟨?_, ?_, hbase_no_slash, Or.inl hdir⟩
    · rw [hdir, hbase]
      unfold pathJoin
      rw [if_neg (by rw [hsw]; exact Bool.false_ne_true), if_pos rfl]
    · unfold baseChars
      rw [hb, List.reverse_reverse]
      exact data_ne_nil_of_ne_empty hne
  | cons dc d' =>
    have hdc : (!(dc == '/')) = false := dropWhile_head_false hd
    have hdc' : dc = '/' := by simpa using hdc
    subst hdc'
    have hpdata : p.data = ('/' :: d').reverse ++
        (p.data.reverse.takeWhile (fun c => !(c == '/'))).reverse := by
      have h2 := congrArg List.reverse hbd
      rw [List.reverse_append, List.reverse_reverse, hd] at h2
      exact h2.symm
    by_cases hall : ((('/' : Char) :: d').all (fun c => c == '/')) = true
    · exfalso
      have hdne : (('/' : Char) :: d').reverse ≠ [] := by simp
      obtain ⟨e, es, hees⟩ := List.exists_cons_of_ne_nil hdne
      have he : e ∈ ('/' : Char) :: d' := by
        rw [← List.mem_reverse, hees]
        exact List.mem_cons_self _ _
      have he' : (e == '/') = true := by
        rw [List.all_eq_true] at hall
        exact hall e he
      have hsw' : startsWithSlash p.data = true := by
        rw [hpdata, hees]
        simp only [List.cons_append, startsWithSlash]
        exact he'
      rw [hsw'] at hsw
      cases hsw
    · have hd'ne : d' ≠ [] := by
        intro h
        subst h
        apply hall
        rfl
      obtain ⟨hdh, hdt, hd'eq⟩ := List.exists_cons_of_ne_nil hd'ne
      subst hd'eq
      have hdh_ne : (hdh == '/') = false := by
        by_cases hh : hdh = '/'
        · exfalso
          subst hh
          have hinf : List.IsInfix ['/', '/'] p.data := by
            refine ⟨hdt.reverse,
              (p.data.reverse.takeWhile (fun c => !(c == '/'))).reverse, ?_⟩
            conv_rhs => rw [hpdata]
            rw [List.reverse_cons, List.reverse_cons]
            simp
          rw [← hasDoubleSlash_iff] at hinf
          rw [hinf] at hds
          cases hds
        · simpa using hh
      have hbne : p.data.reverse.takeWhile (fun c => !(c == '/')) ≠ [] := by
        intro hb0
        have hpl : p.data = ('/' :: hdh :: hdt).reverse := by
          rw [hpdata, hb0]
          simp
        have hev : endsWithSlash p.data = true := by
          unfold endsWithSlash
          rw [hpl, List.getLast?_reverse]
          rfl
        rw [hev] at hend
        cases hend
      have hdir : dirStr p = ⟨(hdh :: hdt).reverse⟩ := by
        unfold dirStr dirChars
        rw [hd, if_neg hall, List.dropWhile_cons, if_pos (by rfl), List.dropWhile_cons,
          if_neg (by rw [hdh_ne]; exact Bool.false_ne_true)]
      have hbrne : (p.data.reverse.takeWhile (fun c => !(c == '/'))).reverse ≠ [] := by
        simpa using hbne
      have hbsw : startsWithSlash
          (p.data.reverse.takeWhile (fun c => !(c == '/'))).reverse = false := by
        obtain ⟨e, es, hes⟩ := List.exists_cons_of_ne_nil hbrne
        have he : e ∈ p.data.reverse.takeWhile (fun c => !(c == '/')) := by
          rw [← List.mem_reverse, hes]
          exact List.mem_cons_self _ _
        have hpe := List.mem_takeWhile_imp he
        rw [hes]
        simp only [startsWithSlash]
        simpa using hpe
      have hdend : endsWithSlash ((hdh :: hdt).reverse : List Char) = false := by
        unfold endsWithSlash
        rw [List.getLast?_reverse]
        simpa using hdh_ne
      have hdne' : ((hdh :: hdt).reverse : List Char) ≠ [] := by simp
      have hdsw : startsWithSlash ((hdh :: hdt).reverse : List Char) = false := by
        obtain ⟨e, es, hes⟩ := List.exists_cons_of_ne_nil hdne'
        have hpd : p.data = e :: (es ++ '/' ::
            (p.data.reverse.takeWhile (fun c => !(c == '/'))).reverse) := by
          calc p.data = ('/' :: hdh :: hdt).reverse ++
              (p.data.reverse.takeWhile (fun c => !(c == '/'))).reverse := hpdata
            _ = ((hdh :: hdt).reverse ++ ['/']) ++
              (p.data.reverse.takeWhile (fun c => !(c == '/'))).reverse := by
                rw [List.reverse_cons]
            _ = ((e :: es) ++ ['/']) ++
              (p.data.reverse.takeWhile (fun c => !(c == '/'))).reverse := by rw [hes]
            _ = e :: (es ++ '/' ::
              (p.data.reverse.takeWhile (fun c => !(c == '/'))).reverse) := by simp
        have hhead : startsWithSlash p.data = (e == '/') := by
          rw [hpd]
          rfl
        rw [hhead] at hsw
        rw [hes]
        simp only [startsWithSlash]
        exact hsw
      refine ⟨?_, hbne ∘ ?_, hbase_no_slash, Or.inr ⟨?_, ?_, ?_⟩⟩
      · rw [hdir]
        show pathJoin _ (⟨(p.data.reverse.takeWhile (fun c => !(c == '/'))).reverse⟩) = p
        unfold pathJoin
        rw [if_neg (by show ¬(startsWithSlash _ = true); rw [hbsw]; exact Bool.false_ne_true)]
        rw [if_neg (mk_ne_empty_of_ne_nil hdne')]
        rw [if_neg (by show ¬(endsWithSlash _ = true); rw [hdend]; exact Bool.false_ne_true)]
        apply String.ext
        rw [String.data_append, String.data_append]
        show (hdh :: hdt).reverse ++ ['/'] ++
          (p.data.reverse.takeWhile (fun c => !(c == '/'))).reverse = p.data
        conv_rhs => rw [hpdata]
        simp
      · intro h
        unfold baseChars at h
        simpa using congrArg List.reverse h
      · rw [hdir]
        exact mk_ne_empty_of_ne_nil hdne'
      · rw [hdir]
        exact hdsw
      · rw [hdir]
        exact hdend

theorem goodName_eq_of_parts {p q : String} (hp : goodName p) (hq : goodName q)
    (hd : dirStr p = dirStr q) (hb : baseStr p = baseStr q) : p = q := by
  have h1 := (goodName_split hp).1
  have h2 := (goodName_split hq).1
  rw [← h1, ← h2, hd, hb]

theorem lookup_isSome_of_mem_keys {α : Type} {l : List (String × α)} {k : String}
    (h : k ∈ l.map Prod.fst) : (List.lookup k l).isSome = true := by
  induction l with
  | nil => cases h
  | cons kv t ih =>
    cases kv with
    | mk a b =>
      by_cases hke : (k == a) = true
      · simp [List.lookup, hke]
      · simp only [List.lookup, hke]
        apply ih
        rw [List.map_cons] at h
        rcases List.mem_cons.mp h with h1 | h1
        · exact absurd (by simp [h1]) hke
        · exact h1

theorem existsPath_of_mem {st : StagingUploadFiles} {m : String}
    (h : m ∈ fileNames st) : existsPath st.files m = true := by
  unfold existsPath
  rw [lookup_isSome_of_mem_keys h]
  rfl

/-- The value of `calc_files(mainfile, with_cutoff=False)` on an existing
mainfile: the mainfile followed by its sorted sibling files. -/
def groupList (st : StagingUploadFiles) (m : String) : List String :=
  m :: sortStr (siblingsOf st m)

theorem calc_files_no_cutoff_eq (st : StagingUploadFiles) (m : String) (cutoff : Nat)
    (hm : existsPath st.files m = true) :
    calc_files st m true false cutoff = .ok (groupList st m) := by
  unfold calc_files groupList
  rw [hm]
  rfl

/-- Every stored raw path is a good name. -/
def goodTree (st : StagingUploadFiles) : Prop := ∀ q ∈ fileNames st, goodName q

instance : DecidablePred goodTree := fun st => by
  unfold goodTree
  exact List.decidableBAll _ _

/-- The set of the calc-files group of `m` (no cutoff): exactly the stored
files of `m`'s directory. -/
theorem mem_groupList_iff (st : StagingUploadFiles) (hgood : goodTree st) (m : String)
    (hm : m ∈ fileNames st) (f : String) :
    f ∈ groupList st m ↔ f ∈ fileNames st ∧ dirStr f = dirStr m := by
  unfold groupList
  rw [List.mem_cons, (sortStr_perm _).mem_iff]
  unfold siblingsOf
  constructor
  · rintro (rfl | hf)
    · exact ⟨hm, rfl⟩
    · rw [List.mem_filter] at hf
      refine ⟨hf.1, ?_⟩
      have h2 := hf.2
      simp only [Bool.and_eq_true, beq_iff_eq, Bool.not_eq_true'] at h2
      exact h2.1
  · rintro ⟨hf, hdir⟩
    by_cases hb : baseStr f = baseStr m
    · left
      exact goodName_eq_of_parts (hgood f hf) (hgood m hm) hdir hb
    · right
      rw [List.mem_filter]
      refine ⟨hf, ?_⟩
      simp [hdir, hb]

theorem foldIns_mem (fs : List String) :
    ∀ (acc : List String) (x : String),
    (x ∈ fs.foldl (fun a f => if always_restricted f then a
        else if a.contains f then a else a ++ [f]) acc) ↔
      x ∈ acc ∨ (x ∈ fs ∧ always_restricted x = false) := by
  induction fs with
  | nil => intro acc x; simp
  | cons f t ih =>
    intro acc x
    rw [List.foldl_cons, ih]
    by_cases har : always_restricted f = true
    · rw [if_pos har]
      constructor
      · rintro (h | ⟨h1, h2⟩)
        · exact Or.inl h
        · exact Or.inr ⟨List.mem_cons_of_mem f h1, h2⟩
      · rintro (h | ⟨h1, h2⟩)
        · exact Or.inl h
        · rcases List.mem_cons.mp h1 with rfl | h3
          · rw [har] at h2; cases h2
          · exact Or.inr ⟨h3, h2⟩
    · rw [if_neg har]
      have har' : always_restricted f = false := Bool.eq_false_iff.mpr har
      have hacc' : ∀ y : String,
          y ∈ (if acc.contains f = true then acc else acc ++ [f]) ↔ y ∈ acc ∨ y = f := by
        intro y
        by_cases hc : acc.contains f = true
        · rw [if_pos hc]
          have hfacc : f ∈ acc := by simpa [List.contains] using hc
          constructor
          · exact fun h => Or.inl h
          · rintro (h | rfl)
            · exact h
            · exact hfacc
        · rw [if_neg hc]
          simp
      constructor
      · rintro (h | ⟨h1, h2⟩)
        · rcases (hacc' x).mp h with h3 | rfl
          · exact Or.inl h3
          · exact Or.inr ⟨List.mem_cons_self _ _, har'⟩
        · exact Or.inr ⟨List.mem_cons_of_mem f h1, h2⟩
      · rintro (h | ⟨h1, h2⟩)
        · exact Or.inl ((hacc' x).mpr (Or.inl h))
        · rcases List.mem_cons.mp h1 with rfl | h3
          · exact Or.inl ((hacc' x).mpr (Or.inr rfl))
          · exact Or.inr ⟨h3, h2⟩

theorem foldIns_nodup (fs : List String) :
    ∀ acc : List String, acc.Nodup →
    (fs.foldl (fun a f => if always_restricted f then a
        else if a.contains f then a else a ++ [f]) acc).Nodup := by
  induction fs with
  | nil => intro acc h; exact h
  | cons f t ih =>
    intro acc h
    rw [List.foldl_cons]
    apply ih
    by_cases har : always_restricted f = true
    · rw [if_pos har]; exact h
    · rw [if_neg har]
      by_cases hc : acc.contains f = true
      · rw [if_pos hc]; exact h
      · rw [if_neg hc]
        have hnf : f ∉ acc := by
          intro hf
          apply hc
          simpa [List.contains] using hf
        simp [List.nodup_append, h, hnf]

/-- Characterization of phase 1.1 of `_pack_raw_files`: under a good tree
whose public entries' mainfiles exist, the phase succeeds, its result is
duplicate-free and stored, and it holds exactly the previously collected
files plus every not-always-restricted member of a public entry's group. -/
theorem phaseA_spec (st : StagingUploadFiles) (hgood : goodTree st)
    (ents : List EntryMetadata) :
    ∀ acc : List String,
    (∀ e ∈ ents, e.with_embargo = false → e.mainfile ∈ fileNames st) →
    (∀ x ∈ acc, x ∈ fileNames st) →
    (∀ x ∈ acc, ∀ f, f ∈ fileNames st → dirStr f = dirStr x →
      always_restricted f = false → f ∈ acc) →
    acc.Nodup →
    ∃ res, packPhaseA st ents acc = .ok res ∧ res.Nodup ∧
      (∀ x ∈ res, x ∈ fileNames st) ∧
      (∀ f, f ∈ res ↔ f ∈ acc ∨ ∃ e ∈ ents, e.with_embargo = false ∧
        f ∈ groupList st e.mainfile ∧ always_restricted f = false) := by
  induction ents with
  | nil =>
    intro acc _ hsub hclosed hnd
    refine ⟨acc, rfl, hnd, hsub, ?_⟩
    intro f
    simp
  | cons ent rest ih =>
    intro acc hents hsub hclosed hnd
    have hentsRest : ∀ e ∈ rest, e.with_embargo = false → e.mainfile ∈ fileNames st :=
      fun e he => hents e (List.mem_cons_of_mem ent he)
    by_cases hemb : ent.with_embargo = true
    · have hstep : packPhaseA st (ent :: rest) acc = packPhaseA st rest acc := by
        simp only [packPhaseA, if_pos hemb]
      obtain ⟨res, heq, hnd', hsub', hmem⟩ := ih acc hentsRest hsub hclosed hnd
      refine ⟨res, hstep ▸ heq, hnd', hsub', ?_⟩
      intro f
      rw [hmem f]
      constructor
      · rintro (h | ⟨e, he, h2⟩)
        · exact Or.inl h
        · exact Or.inr ⟨e, List.mem_cons_of_mem ent he, h2⟩
      · rintro (h | ⟨e, he, hef, hgrp, har⟩)
        · exact Or.inl h
        · rcases List.mem_cons.mp he with rfl | he'
          · rw [hemb] at hef; cases hef
          · exact Or.inr ⟨e, he', hef, hgrp, har⟩
    · have hembf : ent.with_embargo = false := Bool.eq_false_iff.mpr hemb
      have hmainmem : ent.mainfile ∈ fileNames st :=
        hents ent (List.mem_cons_self _ _) hembf
      by_cases hmem0 : acc.contains ent.mainfile = true
      · have hstep : packPhaseA st (ent :: rest) acc = packPhaseA st rest acc := by
          simp only [packPhaseA, if_neg hemb, if_pos hmem0]
        have hmain_in : ent.mainfile ∈ acc := by simpa [List.contains] using hmem0
        obtain ⟨res, heq, hnd', hsub', hmem⟩ := ih acc hentsRest hsub hclosed hnd
        refine ⟨res, hstep ▸ heq, hnd', hsub', ?_⟩
        intro f
        rw [hmem f]
        constructor
        · rintro (h | ⟨e, he, h2⟩)
          · exact Or.inl h
          · exact Or.inr ⟨e, List.mem_cons_of_mem ent he, h2⟩
        · rintro (h | ⟨e, he, hef, hgrp, har⟩)
          · exact Or.inl h
          · rcases List.mem_cons.mp he with rfl | he'
            · left
              have hgrp' := (mem_groupList_iff st hgood e.mainfile hmainmem f).mp hgrp
              exact hclosed e.mainfile hmain_in f hgrp'.1 hgrp'.2 har
            · exact Or.inr ⟨e, he', hef, hgrp, har⟩
      · have hcf := calc_files_no_cutoff_eq st ent.mainfile 0 (existsPath_of_mem hmainmem)
        have hstep : packPhaseA st (ent :: rest) acc =
            packPhaseA st rest ((groupList st ent.mainfile).foldl
              (fun a f => if always_restricted f then a
                else if a.contains f then a else a ++ [f]) acc) := by
          simp only [packPhaseA, if_neg hemb, if_neg hmem0, hcf]
        have hacc'mem : ∀ x, x ∈ ((groupList st ent.mainfile).foldl
            (fun a f => if always_restricted f then a
              else if a.contains f then a else a ++ [f]) acc) ↔ x ∈ acc ∨
            (x ∈ groupList st ent.mainfile ∧ always_restricted x = false) :=
          fun x => foldIns_mem _ acc x
        have hsub' : ∀ x ∈ ((groupList st ent.mainfile).foldl
            (fun a f => if always_restricted f then a
              else if a.contains f then a else a ++ [f]) acc), x ∈ fileNames st := by
          intro x hx
          rcases (hacc'mem x).mp hx with h | ⟨h1, _⟩
          · exact hsub x h
          · exact ((mem_groupList_iff st hgood ent.mainfile hmainmem x).mp h1).1
        have hclosed' : ∀ x ∈ ((groupList st ent.mainfile).foldl
            (fun a f => if always_restricted f then a
              else if a.contains f then a else a ++ [f]) acc),
            ∀ f, f ∈ fileNames st → dirStr f = dirStr x →
            always_restricted f = false →
            f ∈ ((groupList st ent.mainfile).foldl
              (fun a f => if always_restricted f then a
                else if a.contains f then a else a ++ [f]) acc) := by
          intro x hx f hf hdir har
          rcases (hacc'mem x).mp hx with h | ⟨h1, _⟩
          · exact (hacc'mem f).mpr (Or.inl (hclosed x h f hf hdir har))
          · refine (hacc'mem f).mpr (Or.inr ⟨?_, har⟩)
            have hx' := (mem_groupList_iff st hgood ent.mainfile hmainmem x).mp h1
            exact (mem_groupList_iff st hgood ent.mainfile hmainmem f).mpr
              ⟨hf, hdir.trans hx'.2⟩
        have hnd' := foldIns_nodup (groupList st ent.mainfile) acc hnd
        obtain ⟨res, heq, hndr, hsubr, hmem⟩ := ih _ hentsRest hsub' hclosed' hnd'
        refine ⟨res, hstep ▸ heq, hndr, hsubr, ?_⟩
        intro f
        rw [hmem f]
        constructor
        · rintro (h | ⟨e, he, h2⟩)
          · rcases (hacc'mem f).mp h with h3 | ⟨h4, h5⟩
            · exact Or.inl h3
            · exact Or.inr ⟨ent, List.mem_cons_self _ _, hembf, h4, h5⟩
          · exact Or.inr ⟨e, List.mem_cons_of_mem ent he, h2⟩
        · rintro (h | ⟨e, he, hef, hgrp, har⟩)
          · exact Or.inl ((hacc'mem f).mpr (Or.inl h))
          · rcases List.mem_cons.mp he with rfl | he'
            · exact Or.inl ((hacc'mem f).mpr (Or.inr ⟨hgrp, har⟩))
            · exact Or.inr ⟨e, he', hef, hgrp, har⟩

/-- Characterization of phase 1.2 of `_pack_raw_files`: every embargoed
entry's mainfile is removed from the collected public files. -/
theorem phaseB_spec (ents : List EntryMetadata) :
    ∀ pub : List String, pub.Nodup →
    (packPhaseB ents pub).Nodup ∧
    (∀ f, f ∈ packPhaseB ents pub ↔
      f ∈ pub ∧ ∀ e ∈ ents, e.with_embargo = true → e.mainfile ≠ f) := by
  induction ents with
  | nil =>
    intro pub hnd
    refine ⟨hnd, ?_⟩
    intro f
    simp [packPhaseB]
  | cons ent rest ih =>
    intro pub hnd
    have hstep : packPhaseB (ent :: rest) pub =
        packPhaseB rest
          (if ent.with_embargo = true then pub.erase ent.mainfile else pub) := by
      unfold packPhaseB
      rw [List.foldl_cons]
    by_cases hemb : ent.with_embargo = true
    · rw [hstep, if_pos hemb]
      obtain ⟨hndr, hmem⟩ := ih (pub.erase ent.mainfile) (hnd.erase _)
      refine ⟨hndr, ?_⟩
      intro f
      rw [hmem f, hnd.mem_erase_iff, List.forall_mem_cons]
      constructor
      · rintro ⟨⟨hne, hf⟩, hrest⟩
        exact ⟨hf, fun _ => Ne.symm hne, hrest⟩
      · rintro ⟨hf, hent, hrest⟩
        exact ⟨⟨Ne.symm (hent hemb), hf⟩, hrest⟩
    · rw [hstep, if_neg hemb]
      obtain ⟨hndr, hmem⟩ := ih pub hnd
      refine ⟨hndr, ?_⟩
      intro f
      rw [hmem f, List.forall_mem_cons]
      constructor
      · rintro ⟨hf, hrest⟩
        exact ⟨hf, fun hc => absurd hc hemb, hrest⟩
      · rintro ⟨hf, _, hrest⟩
        exact ⟨hf, hrest⟩

/-! ## Claim C2 -/

/-- Claim C2: on a staging tree of well-shaped stored paths whose entry
mainfiles exist, `_pack_raw_files` completes with no logged error, and a raw
file lands in the public zip iff it belongs to the no-cutoff calc-files
group of some entry with `with_embargo=false`, is not matched by
`always_restricted`, and is not itself the mainfile of an embargoed entry;
in particular every embargoed entry's mainfile is absent from the public
name set and present in the restricted name set. -/
theorem C2_pack_placement (st : StagingUploadFiles) (entries : List EntryMetadata)
    (hgood : goodTree st)
    (hmain : ∀ e ∈ entries, e.mainfile ∈ fileNames st) :
    ∃ pub restr, pack_raw_files_run entries st = (pub, restr, none) ∧
      (∀ f, f ∈ pub ↔
        ((∃ e ∈ entries, e.with_embargo = false ∧ f ∈ groupList st e.mainfile) ∧
          always_restricted f = false ∧
          ¬ ∃ e ∈ entries, e.with_embargo = true ∧ e.mainfile = f)) ∧
      (∀ e ∈ entries, e.with_embargo = true → e.mainfile ∉ pub ∧ e.mainfile ∈ restr) := by
  obtain ⟨res, heq, hndr, hsubr, hmemr⟩ := phaseA_spec st hgood entries []
    (fun e he _ => hmain e he) (by intro x h; cases h) (by intro x h; cases h)
    List.nodup_nil
  obtain ⟨hndp, hmemp⟩ := phaseB_spec entries res hndr
  refine ⟨packPhaseB entries res,
    (raw_file_manifest st).filter (fun f => !(packPhaseB entries res).contains f),
    ?_, ?_, ?_⟩
  · unfold pack_raw_files_run
    rw [heq]
  · intro f
    rw [hmemp f, hmemr f]
    simp only [List.not_mem_nil, false_or]
    constructor
    · rintro ⟨⟨e, he, hef, hgrp, har⟩, hemb⟩
      refine ⟨⟨e, he, hef, hgrp⟩, har, ?_⟩
      rintro ⟨e', he', hee, hme⟩
      exact (hemb e' he' hee) hme
    · rintro ⟨⟨e, he, hef, hgrp⟩, har, hnemb⟩
      refine ⟨⟨e, he, hef, hgrp, har⟩, ?_⟩
      intro e' he' hee
      exact fun hme => hnemb ⟨e', he', hee, hme⟩
  · intro e he hemb
    have hin : e.mainfile ∈ raw_file_manifest st := hmain e he
    have hnp : e.mainfile ∉ packPhaseB entries res := by
      rw [hmemp]
      rintro ⟨_, hall⟩
      exact hall e he hemb rfl
    refine ⟨hnp, ?_⟩
    rw [List.mem_filter]
    refine ⟨hin, ?_⟩
    simp only [Bool.not_eq_true', ← Bool.not_eq_true]
    intro hc
    exact hnp (by simpa [List.contains] using hc)

theorem C2_pack_placement_witness :
    ∃ pub restr,
      pack_raw_files_run [⟨"A", "a/main.x", false⟩, ⟨"B", "b/main.x", true⟩]
        ⟨false, [("a/main.x", [1]), ("a/aux.y", [2]), ("b/main.x", [3])], []⟩ =
        (pub, restr, none) ∧
      (∀ f, f ∈ pub ↔
        ((∃ e ∈ [(⟨"A", "a/main.x", false⟩ : EntryMetadata), ⟨"B", "b/main.x", true⟩],
            e.with_embargo = false ∧
            f ∈ groupList
              ⟨false, [("a/main.x", [1]), ("a/aux.y", [2]), ("b/main.x", [3])], []⟩
              e.mainfile) ∧
          always_restricted f = false ∧
          ¬ ∃ e ∈ [(⟨"A", "a/main.x", false⟩ : EntryMetadata), ⟨"B", "b/main.x", true⟩],
            e.with_embargo = true ∧ e.mainfile = f)) ∧
      (∀ e ∈ [(⟨"A", "a/main.x", false⟩ : EntryMetadata), ⟨"B", "b/main.x", true⟩],
        e.with_embargo = true → e.mainfile ∉ pub ∧ e.mainfile ∈ restr) :=
  C2_pack_placement
    ⟨false, [("a/main.x", [1]), ("a/aux.y", [2]), ("b/main.x", [3])], []⟩
    [⟨"A", "a/main.x", false⟩, ⟨"B", "b/main.x", true⟩]
    (by decide) (by decide)

/-! ## Claim C3 -/

/-- Claim C3: after `_pack_raw_files` completes on a good staging tree, the
public and restricted zip name sets are disjoint and their union is exactly
the staging raw-file manifest; and a symbolic-link source element is skipped
by the `add_rawfiles` merge, so links never enter the raw tree. -/
theorem C3_pack_partition (st : StagingUploadFiles) (entries : List EntryMetadata)
    (hgood : goodTree st)
    (hmainP : ∀ e ∈ entries, e.with_embargo = false → e.mainfile ∈ fileNames st) :
    (∃ pub restr, pack_raw_files_run entries st = (pub, restr, none) ∧
      (∀ f, ¬(f ∈ pub ∧ f ∈ restr)) ∧
      (∀ f, (f ∈ pub ∨ f ∈ restr) ↔ f ∈ raw_file_manifest st)) ∧
    (∀ files targetDir e, e.isLink = true → mergeElem files targetDir e = files) := by
  constructor
  · obtain ⟨res, heq, hndr, hsubr, hmemr⟩ := phaseA_spec st hgood entries []
      hmainP (by intro x h; cases h) (by intro x h; cases h) List.nodup_nil
    obtain ⟨hndp, hmemp⟩ := phaseB_spec entries res hndr
    refine ⟨packPhaseB entries res,
      (raw_file_manifest st).filter (fun f => !(packPhaseB entries res).contains f),
      ?_, ?_, ?_⟩
    · unfold pack_raw_files_run
      rw [heq]
    · rintro f ⟨hfp, hfr⟩
      rw [List.mem_filter] at hfr
      have h2 := hfr.2
      simp only [Bool.not_eq_true'] at h2
      have : f ∉ packPhaseB entries res := by
        intro hc
        have : (packPhaseB entries res).contains f = true := by
          simpa [List.contains] using hc
        rw [this] at h2
        cases h2
      exact this hfp
    · intro f
      constructor
      · rintro (h | h)
        · exact hsubr f ((hmemp f).mp h).1
        · exact (List.mem_filter.mp h).1
      · intro hf
        by_cases hp : f ∈ packPhaseB entries res
        · exact Or.inl hp
        · right
          rw [List.mem_filter]
          refine ⟨hf, ?_⟩
          simp only [Bool.not_eq_true']
          by_cases hc : (packPhaseB entries res).contains f = true
          · exact absurd (by simpa [List.contains] using hc) hp
          · exact Bool.eq_false_iff.mpr hc
  · intro files targetDir e he
    unfold mergeElem
    rw [if_pos he]

theorem C3_pack_partition_witness :
    (∃ pub restr,
      pack_raw_files_run [⟨"A", "a/main.x", false⟩, ⟨"B", "b/main.x", true⟩]
        ⟨false, [("a/main.x", [1]), ("a/aux.y", [2]), ("b/main.x", [3])], []⟩ =
        (pub, restr, none) ∧
      (∀ f, ¬(f ∈ pub ∧ f ∈ restr)) ∧
      (∀ f, (f ∈ pub ∨ f ∈ restr) ↔
        f ∈ raw_file_manifest
          ⟨false, [("a/main.x", [1]), ("a/aux.y", [2]), ("b/main.x", [3])], []⟩)) ∧
    (∀ files targetDir e, e.isLink = true → mergeElem files targetDir e = files) :=
  C3_pack_partition
    ⟨false, [("a/main.x", [1]), ("a/aux.y", [2]), ("b/main.x", [3])], []⟩
    [⟨"A", "a/main.x", false⟩, ⟨"B", "b/main.x", true⟩]
    (by decide) (by decide)

/-! ## Claim C1: association-list lemmas for the directory cache -/

theorem lookup_mem {α : Type} {l : List (String × α)} {k : String} {v : α}
    (h : List.lookup k l = some v) : (k, v) ∈ l := by
  induction l with
  | nil => cases h
  | cons kv t ih =>
    cases kv with
    | mk a b =>
      by_cases hk : (k == a) = true
      · simp only [List.lookup, hk] at h
        injection h with h1
        have : k = a := by simpa using hk
        subst this
        subst h1
        exact List.mem_cons_self _ _
      · simp only [List.lookup, hk] at h
        exact List.mem_cons_of_mem _ (ih h)

theorem lookup_none_not_mem {α : Type} {l : List (String × α)} {k : String}
    (h : List.lookup k l = none) : k ∉ l.map Prod.fst := by
  intro hk
  have := @lookup_isSome_of_mem_keys _ l k hk
  rw [h] at this
  cases this

theorem lookup_append_some {α : Type} {m : List (String × α)} {k : String} {v : α}
    (h : List.lookup k m = some v) (m' : List (String × α)) :
    List.lookup k (m ++ m') = some v := by
  induction m with
  | nil => cases h
  | cons kv t ih =>
    cases kv with
    | mk a b =>
      by_cases hk : (k == a) = true
      · simp only [List.lookup, hk] at h ⊢
        exact h
      · simp only [List.lookup, hk] at h ⊢
        exact ih h

theorem lookup_map_replace {α : Type} (k : String) (v : α) :
    ∀ m : List (String × α), k ∈ m.map Prod.fst →
    List.lookup k (m.map (fun kv => if kv.1 == k then (k, v) else kv)) = some v := by
  intro m
  induction m with
  | nil => intro h; cases h
  | cons kv t ih =>
    obtain ⟨a, b⟩ := kv
    intro h
    rw [List.map_cons]
    by_cases hk : (((a, b) : String × α).1 == k) = true
    · rw [if_pos hk]
      simp [List.lookup]
    · rw [if_neg hk]
      simp only [List.lookup]
      have hkk : (k == a) = false := by
        rw [Bool.eq_false_iff]
        intro hc
        apply hk
        simp only [beq_iff_eq] at hc ⊢
        exact hc.symm
      rw [hkk]
      apply ih
      rw [List.map_cons, List.mem_cons] at h
      rcases h with h | h
      · exfalso
        apply hk
        simp [h]
      · exact h

theorem lookup_map_replace_ne {α : Type} (k k' : String) (v : α) (hne : k' ≠ k) :
    ∀ m : List (String × α),
    List.lookup k' (m.map (fun kv => if kv.1 == k then (k, v) else kv)) =
      List.lookup k' m := by
  intro m
  induction m with
  | nil => rfl
  | cons kv t ih =>
    obtain ⟨a, b⟩ := kv
    rw [List.map_cons]
    by_cases hk : (((a, b) : String × α).1 == k) = true
    · rw [if_pos hk]
      have ha : a = k := by simpa using hk
      subst ha
      simp only [List.lookup]
      have h1 : (k' == a) = false := by simp [hne]
      rw [h1]
      exact ih
    · rw [if_neg hk]
      simp only [List.lookup]
      by_cases h2 : (k' == a) = true
      · rw [h2]
      · rw [Bool.eq_false_iff.mpr h2]
        exact ih

theorem lookup_append_single {α : Type} (k : String) (v : α) :
    ∀ m : List (String × α), List.lookup k m = none →
    List.lookup k (m ++ [(k, v)]) = some v := by
  intro m
  induction m with
  | nil =>
    intro _
    simp [List.lookup]
  | cons kv t ih =>
    obtain ⟨a, b⟩ := kv
    intro h
    simp only [List.cons_append, List.lookup] at h ⊢
    cases hka : (k == a) with
    | true => rw [hka] at h; cases h
    | false =>
      rw [hka] at h
      exact ih h

theorem lookup_append_single_ne {α : Type} (k' k : String) (v : α) (hne : k' ≠ k) :
    ∀ m : List (String × α), List.lookup k' (m ++ [(k, v)]) = List.lookup k' m := by
  intro m
  induction m with
  | nil =>
    simp only [List.nil_append, List.lookup]
    have hkk : (k' == k) = false := by
      rw [Bool.eq_false_iff]
      simpa using hne
    rw [hkk]
  | cons kv t ih =>
    obtain ⟨a, b⟩ := kv
    simp only [List.cons_append, List.lookup]
    cases hka : (k' == a) with
    | true => rfl
    | false => exact ih

theorem any_key_of_mem {α : Type} {m : List (String × α)} {k : String}
    (h : k ∈ m.map Prod.fst) : (m.any (fun kv => kv.1 == k)) = true := by
  rw [List.any_eq_true]
  obtain ⟨x, hx, hfst⟩ := List.mem_map.mp h
  exact ⟨x, hx, by simp [hfst]⟩

theorem lookup_aset_self {α : Type} (m : List (String × α)) (k : String) (v : α) :
    List.lookup k (aset m k v) = some v := by
  unfold aset
  by_cases hany : (m.any (fun kv => kv.1 == k)) = true
  · rw [if_pos hany]
    apply lookup_map_replace
    rw [List.any_eq_true] at hany
    obtain ⟨kv, hkv, hk⟩ := hany
    have hk' : kv.1 = k := by simpa using hk
    exact hk' ▸ List.mem_map_of_mem Prod.fst hkv
  · rw [if_neg hany]
    apply lookup_append_single
    cases hl : List.lookup k m with
    | none => rfl
    | some w =>
      exfalso
      apply hany
      rw [List.any_eq_true]
      exact ⟨(k, w), lookup_mem hl, by simp⟩

theorem lookup_aset_ne {α : Type} (m : List (String × α)) (k : String) (v : α)
    {k' : String} (hne : k' ≠ k) :
    List.lookup k' (aset m k v) = List.lookup k' m := by
  unfold aset
  by_cases hany : (m.any (fun kv => kv.1 == k)) = true
  · rw [if_pos hany]
    exact lookup_map_replace_ne k k' v hne m
  · rw [if_neg hany]
    exact lookup_append_single_ne k' k v hne m

theorem aset_keys_nodup {α : Type} {m : List (String × α)}
    (h : (m.map Prod.fst).Nodup) (k : String) (v : α) :
    ((aset m k v).map Prod.fst).Nodup := by
  unfold aset
  by_cases hany : (m.any (fun kv => kv.1 == k)) = true
  · rw [if_pos hany]
    have heq : (m.map (fun kv => if kv.1 == k then (k, v) else kv)).map Prod.fst =
        m.map Prod.fst := by
      rw [List.map_map]
      apply List.map_congr_left
      intro kv _
      by_cases hk : (kv.1 == k) = true
      · simp only [Function.comp_apply, if_pos hk]
        have : kv.1 = k := by simpa using hk
        simp [this]
      · simp only [Function.comp_apply, if_neg hk]
    rw [heq]
    exact h
  · rw [if_neg hany]
    rw [List.map_append]
    have hk : k ∉ m.map Prod.fst := fun hc => hany (any_key_of_mem hc)
    simp [List.nodup_append, h, hk]

theorem aset_mem {α : Type} {m : List (String × α)} {k : String} {v : α}
    {bi : String × α} (h : bi ∈ aset m k v) : (bi ∈ m ∧ bi.1 ≠ k) ∨ bi = (k, v) := by
  unfold aset at h
  by_cases hany : (m.any (fun kv => kv.1 == k)) = true
  · rw [if_pos hany] at h
    obtain ⟨kv, hkv, hmap⟩ := List.mem_map.mp h
    by_cases hk : (kv.1 == k) = true
    · rw [if_pos hk] at hmap
      right
      exact hmap.symm
    · rw [if_neg hk] at hmap
      left
      subst hmap
      exact ⟨hkv, by simpa using hk⟩
  · rw [if_neg hany] at h
    rcases List.mem_append.mp h with h | h
    · left
      refine ⟨h, ?_⟩
      intro hc
      exact hany (any_key_of_mem (hc ▸ List.mem_map_of_mem Prod.fst h))
    · right
      simpa using h

/-! ## Claim C1: character-level decomposition lemmas -/

theorem takeWhile_all_append {α : Type} {p : α → Bool} :
    ∀ {xs : List α} (ys : List α), (∀ x ∈ xs, p x = true) →
    (xs ++ ys).takeWhile p = xs ++ ys.takeWhile p := by
  intro xs
  induction xs with
  | nil => intro ys _; rfl
  | cons x t ih =>
    intro ys h
    rw [List.cons_append, List.takeWhile_cons, if_pos (h x (List.mem_cons_self _ _)),
      List.cons_append]
    rw [ih ys (fun y hy => h y (List.mem_cons_of_mem x hy))]

theorem dropWhile_all_append {α : Type} {p : α → Bool} :
    ∀ {xs : List α} (ys : List α), (∀ x ∈ xs, p x = true) →
    (xs ++ ys).dropWhile p = ys.dropWhile p := by
  intro xs
  induction xs with
  | nil => intro ys _; rfl
  | cons x t ih =>
    intro ys h
    rw [List.cons_append, List.dropWhile_cons, if_pos (h x (List.mem_cons_self _ _))]
    exact ih ys (fun y hy => h y (List.mem_cons_of_mem x hy))

/-- A nonempty slash-free path is its own basename with empty dirname. -/
theorem slashfree_decomp {b : String} (hb : ∀ c ∈ b.data, c ≠ '/') :
    dirStr b = "" ∧ baseStr b = b := by
  have hall : ∀ c ∈ b.data.reverse, (!(c == '/')) = true := by
    intro c hc
    simp [hb c (List.mem_reverse.mp hc)]
  have htake : b.data.reverse.takeWhile (fun c => !(c == '/')) = b.data.reverse := by
    have := @takeWhile_all_append Char (fun c => !(c == '/')) b.data.reverse [] hall
    simpa using this
  have hdrop : b.data.reverse.dropWhile (fun c => !(c == '/')) = [] := by
    have := @dropWhile_all_append Char (fun c => !(c == '/')) b.data.reverse [] hall
    simpa using this
  constructor
  · unfold dirStr dirChars
    rw [hdrop]
    rfl
  · unfold baseStr baseChars
    rw [htake, List.reverse_reverse]

/-- Dirname and basename of `d ++ "/" ++ b` for a clean nonempty `d` and a
nonempty slash-free `b`. -/
theorem join_decomp {d b : String} (hd : d ≠ "") (hdsw : startsWithSlash d.data = false)
    (hdend : endsWithSlash d.data = false) (hb : b ≠ "") (hbs : ∀ c ∈ b.data, c ≠ '/') :
    dirStr (d ++ "/" ++ b) = d ∧ baseStr (d ++ "/" ++ b) = b := by
  have hdata : (d ++ "/" ++ b).data = d.data ++ '/' :: b.data := by
    rw [String.data_append, String.data_append]
    simp
  have hrev : (d ++ "/" ++ b).data.reverse = b.data.reverse ++ '/' :: d.data.reverse := by
    rw [hdata]
    simp
  have hall : ∀ c ∈ b.data.reverse, (!(c == '/')) = true := by
    intro c hc
    simp [hbs c (List.mem_reverse.mp hc)]
  have htake : (d ++ "/" ++ b).data.reverse.takeWhile (fun c => !(c == '/')) =
      b.data.reverse := by
    rw [hrev, takeWhile_all_append _ hall, List.takeWhile_cons]
    simp
  have hdrop : (d ++ "/" ++ b).data.reverse.dropWhile (fun c => !(c == '/')) =
      '/' :: d.data.reverse := by
    rw [hrev, dropWhile_all_append _ hall, List.dropWhile_cons]
    simp
  have hdne : d.data ≠ [] := data_ne_nil_of_ne_empty hd
  obtain ⟨dh, dt, hdeq⟩ := List.exists_cons_of_ne_nil hdne
  have hdh : (dh == '/') = false := by
    rw [hdeq] at hdsw
    simpa [startsWithSlash] using hdsw
  constructor
  · unfold dirStr dirChars
    rw [hdrop]
    have hnotall : ((('/' : Char) :: d.data.reverse).all (fun c => c == '/')) = false := by
      rw [Bool.eq_false_iff]
      intro hc
      rw [List.all_eq_true] at hc
      have : dh ∈ ('/' : Char) :: d.data.reverse := by
        rw [hdeq]
        simp
      have := hc dh this
      rw [hdh] at this
      cases this
    rw [if_neg (by rw [hnotall]; exact Bool.false_ne_true)]
    rw [List.dropWhile_cons, if_pos (by rfl)]
    have hdlast : d.data.reverse.dropWhile (fun c => c == '/') = d.data.reverse := by
      obtain ⟨e, es, hes⟩ := List.exists_cons_of_ne_nil
        (show d.data.reverse ≠ [] by simpa using hdne)
      rw [hes, List.dropWhile_cons]
      have he : (e == '/') = false := by
        have hg : d.data.getLast? = some e := by
          rw [← List.head?_reverse, hes]
          rfl
        unfold endsWithSlash at hdend
        rw [hg] at hdend
        exact hdend
      rw [if_neg (by rw [he]; exact Bool.false_ne_true)]
    rw [hdlast, List.reverse_reverse]
  · unfold baseStr baseChars
    rw [htake, List.reverse_reverse]

theorem pathJoin_empty_left (b : String) : pathJoin "" b = b := by
  unfold pathJoin
  by_cases h : startsWithSlash b.data = true
  · rw [if_pos h]
  · rw [if_neg h, if_pos rfl]

/-- `pathJoin` of a clean nonempty dirname and a name that does not start
with a slash is plain concatenation with a separator. -/
theorem pathJoin_clean {d b : String} (hd : d ≠ "") (hdend : endsWithSlash d.data = false)
    (hbsw : startsWithSlash b.data = false) : pathJoin d b = d ++ "/" ++ b := by
  unfold pathJoin
  rw [if_neg (by rw [hbsw]; exact Bool.false_ne_true), if_neg hd,
    if_neg (by rw [hdend]; exact Bool.false_ne_true)]

theorem startsWithSlash_append {xs ys : List Char} (h : xs ≠ []) :
    startsWithSlash (xs ++ ys) = startsWithSlash xs := by
  obtain ⟨x, t, hxt⟩ := List.exists_cons_of_ne_nil h
  rw [hxt]
  rfl

theorem endsWithSlash_append {xs ys : List Char} (h : ys ≠ []) :
    endsWithSlash (xs ++ ys) = endsWithSlash ys := by
  unfold endsWithSlash
  rw [List.getLast?_append]
  cases hg : ys.getLast? with
  | none => exact absurd (List.getLast?_eq_none_iff.mp hg) h
  | some e => rfl

/-- Joining a clean sub-path with a nonempty slash-free component yields a
clean nonempty path. -/
theorem cleanDir_join {sub : String} {comp : String} (hsub : cleanDir sub)
    (hcne : comp ≠ "") (hcs : ∀ c ∈ comp.data, c ≠ '/') :
    pathJoin sub comp ≠ "" ∧ startsWithSlash (pathJoin sub comp).data = false ∧
      endsWithSlash (pathJoin sub comp).data = false := by
  have hcdne : comp.data ≠ [] := data_ne_nil_of_ne_empty hcne
  obtain ⟨c0, ct, hceq⟩ := List.exists_cons_of_ne_nil hcdne
  have hc0 : c0 ∈ comp.data := by rw [hceq]; exact List.mem_cons_self _ _
  have hcsw : startsWithSlash comp.data = false := by
    rw [hceq]
    simp only [startsWithSlash]
    simp [hcs c0 hc0]
  have hcend : endsWithSlash comp.data = false := by
    unfold endsWithSlash
    cases hg : comp.data.getLast? with
    | none => rfl
    | some e =>
      have he : e ∈ comp.data := List.mem_of_mem_getLast? hg
      simp [hcs e he]
  rcases hsub with hsub | ⟨hne, hsw, hend⟩
  · subst hsub
    rw [pathJoin_empty_left]
    exact ⟨hcne, hcsw, hcend⟩
  · rw [pathJoin_clean hne hend hcsw]
    have hdata : (sub ++ "/" ++ comp).data = sub.data ++ '/' :: comp.data := by
      rw [String.data_append, String.data_append]
      simp
    refine ⟨?_, ?_, ?_⟩
    · apply @mk_ne_empty_of_ne_nil ((sub ++ "/" ++ comp).data)
      rw [hdata]
      simp [data_ne_nil_of_ne_empty hne]
    · rw [hdata, startsWithSlash_append (data_ne_nil_of_ne_empty hne)]
      exact hsw
    · rw [hdata]
      have h1 : ('/' :: comp.data : List Char) = [('/' : Char)] ++ comp.data := rfl
      rw [endsWithSlash_append (by simp [hceq]), h1, endsWithSlash_append hcdne]
      exact hcend

/-! ## Claim C1: `splitSlash` component lemmas -/

theorem splitSlash_ne_nil (l : List Char) : splitSlash l ≠ [] := by
  cases l with
  | nil => simp [splitSlash]
  | cons c rest =>
    simp only [splitSlash]
    cases splitSlash rest with
    | nil => simp
    | cons h t =>
      by_cases hc : (c == '/') = true <;> simp [hc]

theorem splitSlash_cons_eq (c : Char) (rest : List Char) {h0 : List Char}
    {t0 : List (List Char)} (hht : splitSlash rest = h0 :: t0) :
    splitSlash (c :: rest) =
      if (c == '/') = true then [] :: h0 :: t0 else (c :: h0) :: t0 := by
  simp only [splitSlash]
  rw [hht]

theorem hasDoubleSlash_cons_cons (a b : Char) (t : List Char) :
    hasDoubleSlash (a :: b :: t) = (((a == '/') && (b == '/')) || hasDoubleSlash (b :: t)) :=
  rfl

theorem splitSlash_no_slash (l : List Char) :
    ∀ comp ∈ splitSlash l, ∀ c ∈ comp, c ≠ '/' := by
  induction l with
  | nil =>
    intro comp hcomp c hc
    simp only [splitSlash] at hcomp
    rw [List.mem_singleton] at hcomp
    subst hcomp
    cases hc
  | cons x rest ih =>
    intro comp hcomp c hc
    obtain ⟨h0, t0, hht⟩ := List.exists_cons_of_ne_nil (splitSlash_ne_nil rest)
    rw [splitSlash_cons_eq x rest hht] at hcomp
    by_cases hx : (x == '/') = true
    · rw [if_pos hx] at hcomp
      rcases List.mem_cons.mp hcomp with rfl | hcomp'
      · cases hc
      · exact ih comp (hht ▸ hcomp') c hc
    · rw [if_neg hx] at hcomp
      rcases List.mem_cons.mp hcomp with rfl | hcomp'
      · rcases List.mem_cons.mp hc with rfl | hc'
        · simpa using hx
        · exact ih h0 (hht ▸ List.mem_cons_self _ _) c hc'
      · exact ih comp (hht ▸ List.mem_cons_of_mem h0 hcomp') c hc

theorem splitSlash_nonempty :
    ∀ (n : Nat) (l : List Char), l.length ≤ n → l ≠ [] →
    startsWithSlash l = false → hasDoubleSlash l = false → endsWithSlash l = false →
    ∀ comp ∈ splitSlash l, comp ≠ [] := by
  intro n
  induction n with
  | zero =>
    intro l hl hne _ _ _
    exact absurd (List.length_eq_zero.mp (Nat.le_zero.mp hl)) hne
  | succ n ih =>
    intro l hl hne hsw hds hend
    obtain ⟨c, rest, rfl⟩ := List.exists_cons_of_ne_nil hne
    have hc : (c == '/') = false := by simpa [startsWithSlash] using hsw
    cases rest with
    | nil =>
      intro comp hcomp
      have hs1 : splitSlash [c] = [[c]] := by
        rw [splitSlash_cons_eq c [] (show splitSlash [] = [] :: [] from rfl)]
        rw [if_neg (by rw [hc]; exact Bool.false_ne_true)]
      rw [hs1, List.mem_singleton] at hcomp
      subst hcomp
      simp
    | cons c2 rest2 =>
      obtain ⟨h0, t0, hht⟩ := List.exists_cons_of_ne_nil (splitSlash_ne_nil (c2 :: rest2))
      have hstep : splitSlash (c :: c2 :: rest2) = (c :: h0) :: t0 := by
        rw [splitSlash_cons_eq c (c2 :: rest2) hht]
        rw [if_neg (by rw [hc]; exact Bool.false_ne_true)]
      by_cases hc2 : (c2 == '/') = true
      · have hc2' : c2 = '/' := by simpa using hc2
        subst hc2'
        have hrest2ne : rest2 ≠ [] := by
          intro h
          subst h
          have he : endsWithSlash [c, '/'] = true := rfl
          rw [he] at hend
          cases hend
        obtain ⟨c3, r3, h3⟩ := List.exists_cons_of_ne_nil hrest2ne
        subst h3
        have hs2 : splitSlash ('/' :: c3 :: r3) = [] :: splitSlash (c3 :: r3) := by
          obtain ⟨h1, t1, hht1⟩ :=
            List.exists_cons_of_ne_nil (splitSlash_ne_nil (c3 :: r3))
          rw [splitSlash_cons_eq '/' (c3 :: r3) hht1, if_pos (by rfl), ← hht1]
        rw [hs2] at hht
        injection hht with hh0 ht0
        have hc3 : (c3 == '/') = false := by
          cases hc3 : (c3 == '/') with
          | false => rfl
          | true =>
            exfalso
            have hc3' : c3 = '/' := by simpa using hc3
            subst hc3'
            have hdd : hasDoubleSlash (c :: '/' :: '/' :: r3) = true := by
              rw [hasDoubleSlash_cons_cons, hasDoubleSlash_cons_cons]
              simp
            rw [hdd] at hds
            cases hds
        have hds3 : hasDoubleSlash (c3 :: r3) = false := by
          rw [hasDoubleSlash_cons_cons] at hds
          have h2 := (Bool.or_eq_false_iff.mp hds).2
          rw [hasDoubleSlash_cons_cons] at h2
          exact (Bool.or_eq_false_iff.mp h2).2
        have hend3 : endsWithSlash (c3 :: r3) = false := by
          have hsplit : (c :: '/' :: c3 :: r3 : List Char) = [c, '/'] ++ (c3 :: r3) := rfl
          rw [hsplit, endsWithSlash_append (by simp)] at hend
          exact hend
        have hlen : (c3 :: r3).length ≤ n := by
          simp only [List.length_cons] at hl ⊢
          omega
        intro comp hcomp
        rw [hstep] at hcomp
        rcases List.mem_cons.mp hcomp with rfl | hcomp'
        · simp
        · rw [← ht0] at hcomp'
          exact ih (c3 :: r3) hlen (by simp)
            (by simp [startsWithSlash, hc3]) hds3 hend3 comp hcomp'
      · have hds2 : hasDoubleSlash (c2 :: rest2) = false := by
          rw [hasDoubleSlash_cons_cons] at hds
          exact (Bool.or_eq_false_iff.mp hds).2
        have hend2 : endsWithSlash (c2 :: rest2) = false := by
          have hsplit : (c :: c2 :: rest2 : List Char) = [c] ++ (c2 :: rest2) := rfl
          rw [hsplit, endsWithSlash_append (by simp)] at hend
          exact hend
        have hlen : (c2 :: rest2).length ≤ n := by
          simp only [List.length_cons] at hl ⊢
          omega
        have hall := ih (c2 :: rest2) hlen (by simp)
          (by simpa [startsWithSlash] using hc2) hds2 hend2
        intro comp hcomp
        rw [hstep] at hcomp
        rcases List.mem_cons.mp hcomp with rfl | hcomp'
        · simp
        · exact hall comp (hht ▸ List.mem_cons_of_mem h0 hcomp')

/-! ## Claim C1: invariants of the `_parse_content` cache -/

theorem goodName_dirStr_facts {g : String} (hg : goodName g) :
    cleanDir (dirStr g) ∧ hasDoubleSlash (dirStr g).data = false := by
  have hsplit := goodName_split hg
  refine ⟨hsplit.2.2.2, ?_⟩
  rcases hcd : hsplit.2.2.2 with hdir | ⟨hne, hsw, hend⟩
  · rw [hdir]
    rfl
  · have hbase_sw : startsWithSlash (baseStr g).data = false := by
      obtain ⟨e, es, hes⟩ := List.exists_cons_of_ne_nil hsplit.2.1
      show startsWithSlash (baseChars g.data) = false
      rw [hes]
      simp only [startsWithSlash]
      simp [hsplit.2.2.1 e (hes ▸ List.mem_cons_self _ _)]
    have hjoin := hsplit.1
    rw [pathJoin_clean hne hend hbase_sw] at hjoin
    have hdata : g.data = (dirStr g).data ++ '/' :: (baseStr g).data := by
      conv_lhs => rw [← hjoin]
      rw [String.data_append, String.data_append]
      simp
    cases hdd : hasDoubleSlash (dirStr g).data with
    | false => rfl
    | true =>
      exfalso
      rw [hasDoubleSlash_iff] at hdd
      have hinf : List.IsInfix ['/', '/'] g.data := by
        rw [hdata]
        exact hdd.trans ⟨[], '/' :: (baseStr g).data, by simp⟩
      have hds := (wf_no_slashes hg.1 hg.2.1).2
      rw [(hasDoubleSlash_iff g.data).mpr hinf] at hds
      cases hds

/-- The shape of one cached entry: its `path` field joins its keys, the name
key is slash-free, and the directory key is clean (empty only for the
degenerate root entry). -/
def entryOK (d b : String) (i : UploadPathInfo) : Prop :=
  i.path = pathJoin d b ∧ (∀ c ∈ b.data, c ≠ '/') ∧
  (b = "" → d = "") ∧ (b ≠ "" → cleanDir d)

/-- Invariant of the `_parse_content` cache: keys are duplicate-free at both
levels and every entry is well shaped. -/
def cacheInv (ds : Dirs) : Prop :=
  (ds.map Prod.fst).Nodup ∧
  (∀ dc ∈ ds, ((dc.2.map Prod.fst : List String)).Nodup) ∧
  (∀ dc ∈ ds, ∀ bi ∈ dc.2, entryOK dc.1 bi.1 bi.2)

theorem mem_eq_lookup {α : Type} {l : List (String × α)}
    (hnd : (l.map Prod.fst).Nodup) {kv : String × α} (hkv : kv ∈ l) :
    List.lookup kv.1 l = some kv.2 := by
  obtain ⟨a, b⟩ := kv
  exact (lookup_eq_some_iff hnd).mpr hkv

theorem dirStepContent_nodup {access : String} {ds : Dirs} {sub : String}
    {comp : List Char} (hinv : cacheInv ds) :
    ((dirStepContent access ds sub comp).map Prod.fst).Nodup := by
  unfold dirStepContent
  have hcont : (((List.lookup sub ds).getD []).map Prod.fst : List String).Nodup := by
    cases hl : List.lookup sub ds with
    | none => simp
    | some c =>
      simpa using hinv.2.1 (sub, c) (lookup_mem hl)
  by_cases hsome : (List.lookup (⟨comp⟩ : String) ((List.lookup sub ds).getD [])).isSome = true
  · rw [if_pos hsome]
    exact hcont
  · rw [if_neg hsome]
    rw [List.map_append]
    have hnm : (⟨comp⟩ : String) ∉ ((List.lookup sub ds).getD []).map Prod.fst := by
      intro hc
      apply hsome
      rw [lookup_isSome_of_mem_keys hc]
    simp [List.nodup_append, hcont, hnm]

theorem dirStepContent_mem {access : String} {ds : Dirs} {sub : String}
    {comp : List Char} {bi : String × UploadPathInfo}
    (h : bi ∈ dirStepContent access ds sub comp) :
    bi ∈ (List.lookup sub ds).getD [] ∨
      bi = (⟨comp⟩, ⟨pathJoin sub ⟨comp⟩, false, -1, access⟩) := by
  unfold dirStepContent at h
  by_cases hsome : (List.lookup (⟨comp⟩ : String) ((List.lookup sub ds).getD [])).isSome = true
  · rw [if_pos hsome] at h
    exact Or.inl h
  · rw [if_neg hsome] at h
    rcases List.mem_append.mp h with h | h
    · exact Or.inl h
    · exact Or.inr (by simpa using h)

theorem dirStep_inv {access : String} {ds : Dirs} {sub : String} {comp : List Char}
    (hinv : cacheInv ds) (hsub : cleanDir sub)
    (hcomp_slash : ∀ c ∈ comp, c ≠ '/') (hcomp_nil : comp = [] → sub = "") :
    cacheInv (dirStep access (ds, sub) comp).1 ∧
      cleanDir (dirStep access (ds, sub) comp).2 := by
  have hmem_ok : ∀ bi ∈ (List.lookup sub ds).getD [], entryOK sub bi.1 bi.2 := by
    intro bi hbi
    cases hl : List.lookup sub ds with
    | none => rw [hl] at hbi; cases hbi
    | some c =>
      rw [hl] at hbi
      exact hinv.2.2 (sub, c) (lookup_mem hl) bi hbi
  constructor
  · refine ⟨aset_keys_nodup hinv.1 _ _, ?_, ?_⟩
    · intro dc hdc
      rcases aset_mem hdc with ⟨hdc', _⟩ | heq
      · exact hinv.2.1 dc hdc'
      · rw [heq]
        exact dirStepContent_nodup hinv
    · intro dc hdc bi hbi
      rcases aset_mem hdc with ⟨hdc', _⟩ | heq
      · exact hinv.2.2 dc hdc' bi hbi
      · rw [heq] at hbi ⊢
        rcases dirStepContent_mem hbi with h | h
        · exact hmem_ok bi h
        · rw [h]
          refine ⟨rfl, ?_, ?_, ?_⟩
          · intro c hc
            exact hcomp_slash c hc
          · intro hmk
            exact hcomp_nil (congrArg String.data hmk)
          · intro _
            exact hsub
  · show cleanDir (pathJoin sub ⟨comp⟩)
    by_cases hcnil : comp = []
    · subst hcnil
      have hsub0 := hcomp_nil rfl
      subst hsub0
      rw [pathJoin_empty_left]
      exact Or.inl (String.ext rfl)
    · have hcne : (⟨comp⟩ : String) ≠ "" := mk_ne_empty_of_ne_nil hcnil
      have := cleanDir_join hsub hcne hcomp_slash
      exact Or.inr ⟨this.1, this.2.1, this.2.2⟩

theorem dirLoop_inv (access : String) :
    ∀ (comps : List (List Char)) (ds0 : Dirs) (sub0 : String),
    cacheInv ds0 → cleanDir sub0 →
    (∀ comp ∈ comps, ∀ c ∈ comp, c ≠ '/') →
    ((∀ comp ∈ comps, comp ≠ []) ∨ (comps = [[]] ∧ sub0 = "")) →
    cacheInv ((comps.foldl (dirStep access) (ds0, sub0)).1) := by
  intro comps
  induction comps with
  | nil =>
    intro ds0 sub0 h0 _ _ _
    exact h0
  | cons comp rest ih =>
    intro ds0 sub0 h0 hsub0 hslash hnil
    rw [List.foldl_cons]
    have hcnil : comp = [] → sub0 = "" := by
      rcases hnil with h | ⟨_, hs⟩
      · intro hc
        exact absurd hc (h comp (List.mem_cons_self _ _))
      · intro _
        exact hs
    have hstep := @dirStep_inv access ds0 sub0 comp h0 hsub0
      (hslash comp (List.mem_cons_self _ _)) hcnil
    have hrest_nil : (∀ c2 ∈ rest, c2 ≠ []) ∨
        (rest = [[]] ∧ (dirStep access (ds0, sub0) comp).2 = "") := by
      rcases hnil with h | ⟨hc, _⟩
      · exact Or.inl (fun c2 hc2 => h c2 (List.mem_cons_of_mem comp hc2))
      · left
        intro c2 hc2
        injection hc with h1 h2
        rw [h2] at hc2
        cases hc2
    have := ih (dirStep access (ds0, sub0) comp).1 (dirStep access (ds0, sub0) comp).2
      hstep.1 hstep.2 (fun c2 hc2 => hslash c2 (List.mem_cons_of_mem comp hc2)) hrest_nil
    rwa [Prod.mk.eta] at this

theorem addPath_inv {ds : Dirs} (hinv : cacheInv ds) (access : String) {g : String}
    (hg : goodName g) (size : Int) : cacheInv (addPath ds access g size) := by
  obtain ⟨hclean, hdd⟩ := goodName_dirStr_facts hg
  have hsplit := goodName_split hg
  have hloop : cacheInv (((splitSlash (dirStr g).data).foldl (dirStep access)
      (ds, "")).1) := by
    apply dirLoop_inv access _ ds "" hinv (Or.inl rfl)
      (fun comp hcomp c hc => splitSlash_no_slash _ comp hcomp c hc)
    rcases hclean with hdir | ⟨hne, hsw, hend⟩
    · right
      constructor
      · rw [hdir]
        rfl
      · rfl
    · left
      exact splitSlash_nonempty (dirStr g).data.length _ le_rfl
        (data_ne_nil_of_ne_empty hne) hsw hdd hend
  have hbne : baseStr g ≠ "" := mk_ne_empty_of_ne_nil hsplit.2.1
  unfold addPath
  rw [if_neg (by simp [hbne])]
  have hdirs2 := hloop
  refine ⟨aset_keys_nodup hdirs2.1 _ _, ?_, ?_⟩
  · intro dc hdc
    rcases aset_mem hdc with ⟨hdc', _⟩ | heq
    · exact hdirs2.2.1 dc hdc'
    · rw [heq]
      have hcont : ((((List.lookup (dirStr g)
          (((splitSlash (dirStr g).data).foldl (dirStep access) (ds, "")).1)).getD
          []).map Prod.fst : List String)).Nodup := by
        cases hl : List.lookup (dirStr g)
            (((splitSlash (dirStr g).data).foldl (dirStep access) (ds, "")).1) with
        | none => simp
        | some c => simpa using hdirs2.2.1 (dirStr g, c) (lookup_mem hl)
      exact aset_keys_nodup hcont _ _
  · intro dc hdc bi hbi
    rcases aset_mem hdc with ⟨hdc', _⟩ | heq
    · exact hdirs2.2.2 dc hdc' bi hbi
    · rw [heq] at hbi ⊢
      rcases aset_mem hbi with ⟨hbi', _⟩ | heq2
      · cases hl : List.lookup (dirStr g)
            (((splitSlash (dirStr g).data).foldl (dirStep access) (ds, "")).1) with
        | none =>
          rw [hl] at hbi'
          cases hbi'
        | some c =>
          rw [hl] at hbi'
          exact hdirs2.2.2 (dirStr g, c) (lookup_mem hl) bi hbi'
      · rw [heq2]
        refine ⟨hsplit.1.symm, hsplit.2.2.1, ?_, ?_⟩
        · intro hc
          exact absurd hc hbne
        · intro _
          exact hsplit.2.2.2

theorem parseOne_inv {access : String} :
    ∀ {z : List (String × Bytes)} {ds : Dirs},
    (∀ n ∈ z.map Prod.fst, goodName n) → cacheInv ds →
    cacheInv (parseOne ds access z) := by
  intro z
  induction z with
  | nil => intro ds _ h; exact h
  | cons nc t ih =>
    intro ds hz hinv
    unfold parseOne
    rw [List.foldl_cons]
    exact ih (fun n hn => hz n (by rw [List.map_cons]; exact List.mem_cons_of_mem _ hn))
      (addPath_inv hinv access (hz nc.1 (by rw [List.map_cons]; exact List.mem_cons_self _ _))
        (Int.ofNat nc.2.length))

/-- All zip member names of a public store are good raw-file names (as
`pack` writes them). -/
def goodStore (store : PublicUploadFiles) : Prop :=
  (∀ z, store.pubZip = some z → ∀ n ∈ z.map Prod.fst, goodName n) ∧
  (∀ z, store.restrZip = some z → ∀ n ∈ z.map Prod.fst, goodName n)

theorem parse_content_inv (store : PublicUploadFiles) (hgood : goodStore store) :
    cacheInv (parse_content store) := by
  have hinit : cacheInv ([] : Dirs) := by
    refine ⟨List.nodup_nil, ?_, ?_⟩ <;> (intro dc h; cases h)
  unfold parse_content
  cases hpz : store.pubZip with
  | none =>
    cases hrz : store.restrZip with
    | none => exact hinit
    | some z => exact parseOne_inv (hgood.2 z hrz) hinit
  | some zp =>
    cases hrz : store.restrZip with
    | none => exact parseOne_inv (hgood.1 zp hpz) hinit
    | some z => exact parseOne_inv (hgood.2 z hrz) (parseOne_inv (hgood.1 zp hpz) hinit)

/-- A restricted-pass file entry is present in the cache at the key pair of
its dirname and basename, with access `"restricted"`. -/
def restrEntry (ds : Dirs) (f : String) : Prop :=
  ∃ c i, List.lookup (dirStr f) ds = some c ∧ List.lookup (baseStr f) c = some i ∧
    i.access = "restricted"

theorem dirStep_preserves_restr {access : String} {ds : Dirs} {sub : String}
    {comp : List Char} {f : String} (h : restrEntry ds f) :
    restrEntry ((dirStep access (ds, sub) comp).1) f := by
  obtain ⟨c, i, hc, hi, hacc⟩ := h
  show restrEntry (aset ds sub (dirStepContent access ds sub comp)) f
  by_cases hsubf : dirStr f = sub
  · subst hsubf
    refine ⟨dirStepContent access ds (dirStr f) comp, i, lookup_aset_self _ _ _, ?_, hacc⟩
    unfold dirStepContent
    rw [hc]
    by_cases hsome : (List.lookup (⟨comp⟩ : String) ((some c).getD [])).isSome = true
    · rw [if_pos hsome]
      exact hi
    · rw [if_neg hsome]
      have hcomp_ne : (⟨comp⟩ : String) ≠ baseStr f := by
        intro hcc
        apply hsome
        show (List.lookup (⟨comp⟩ : String) c).isSome = true
        rw [hcc, hi]
        rfl
      show List.lookup (baseStr f) (c ++ [((⟨comp⟩ : String),
        (⟨pathJoin (dirStr f) ⟨comp⟩, false, -1, access⟩ : UploadPathInfo))]) = some i
      rw [lookup_append_single_ne (baseStr f) _ _ (Ne.symm hcomp_ne)]
      exact hi
  · exact ⟨c, i, by rw [lookup_aset_ne _ _ _ hsubf]; exact hc, hi, hacc⟩

theorem dirLoop_preserves_restr (access : String) {f : String} :
    ∀ (comps : List (List Char)) (ds : Dirs) (sub : String), restrEntry ds f →
    restrEntry ((comps.foldl (dirStep access) (ds, sub)).1) f := by
  intro comps
  induction comps with
  | nil => intro ds sub h; exact h
  | cons comp rest ih =>
    intro ds sub h
    rw [List.foldl_cons]
    have := ih (dirStep access (ds, sub) comp).1 (dirStep access (ds, sub) comp).2
      (dirStep_preserves_restr h)
    rwa [Prod.mk.eta] at this

theorem addPath_preserves_restr {ds : Dirs} {g : String} {size : Int} {f : String}
    (h : restrEntry ds f) : restrEntry (addPath ds "restricted" g size) f := by
  unfold addPath
  have hloop := dirLoop_preserves_restr "restricted" (splitSlash (dirStr g).data) ds "" h
  by_cases hbg : (baseStr g == "") = true
  · rw [if_pos hbg]
    exact hloop
  · rw [if_neg hbg]
    show restrEntry (aset (((splitSlash (dirStr g).data).foldl (dirStep "restricted")
        (ds, "")).1) (dirStr g)
      (aset ((List.lookup (dirStr g) (((splitSlash (dirStr g).data).foldl
          (dirStep "restricted") (ds, "")).1)).getD [])
        (baseStr g) ⟨g, true, size, "restricted"⟩)) f
    generalize ((splitSlash (dirStr g).data).foldl (dirStep "restricted")
      (ds, "")).1 = D at hloop ⊢
    obtain ⟨c, i, hc, hi, hacc⟩ := hloop
    by_cases hdg : dirStr g = dirStr f
    · rw [← hdg] at hc
      unfold restrEntry
      rw [← hdg, hc]
      by_cases hbf : baseStr g = baseStr f
      · refine ⟨aset c (baseStr g) ⟨g, true, size, "restricted"⟩,
          ⟨g, true, size, "restricted"⟩, lookup_aset_self _ _ _, ?_, rfl⟩
        rw [← hbf]
        exact lookup_aset_self _ _ _
      · refine ⟨aset c (baseStr g) ⟨g, true, size, "restricted"⟩, i,
          lookup_aset_self _ _ _, ?_, hacc⟩
        rw [lookup_aset_ne _ _ _ (fun hx => hbf hx.symm)]
        exact hi
    · refine ⟨c, i, ?_, hi, hacc⟩
      rw [lookup_aset_ne _ _ _ (fun hx => hdg hx.symm)]
      exact hc

theorem addPath_establishes_restr {ds : Dirs} {g : String} {size : Int}
    (hbg : baseStr g ≠ "") : restrEntry (addPath ds "restricted" g size) g := by
  unfold addPath
  rw [if_neg (by simpa using hbg)]
  show restrEntry (aset (((splitSlash (dirStr g).data).foldl (dirStep "restricted")
      (ds, "")).1) (dirStr g)
    (aset ((List.lookup (dirStr g) (((splitSlash (dirStr g).data).foldl
        (dirStep "restricted") (ds, "")).1)).getD [])
      (baseStr g) ⟨g, true, size, "restricted"⟩)) g
  exact ⟨_, _, lookup_aset_self _ _ _, lookup_aset_self _ _ _, rfl⟩

theorem parseOne_preserves_restr {f : String} :
    ∀ (z : List (String × Bytes)) (ds : Dirs), restrEntry ds f →
    restrEntry (parseOne ds "restricted" z) f := by
  intro z
  induction z with
  | nil => intro ds h; exact h
  | cons nc t ih =>
    intro ds h
    unfold parseOne
    rw [List.foldl_cons]
    exact ih _ (addPath_preserves_restr h)

theorem parseOne_restr_establish {f : String} (hbf : baseStr f ≠ "") :
    ∀ (z : List (String × Bytes)) (ds : Dirs), f ∈ z.map Prod.fst →
    restrEntry (parseOne ds "restricted" z) f := by
  intro z
  induction z with
  | nil => intro ds h; cases h
  | cons nc t ih =>
    intro ds h
    unfold parseOne
    rw [List.foldl_cons]
    rw [List.map_cons, List.mem_cons] at h
    rcases h with h | h
    · exact parseOne_preserves_restr t _ (h ▸ addPath_establishes_restr hbf)
    · exact ih _ h

theorem parse_content_restr {store : PublicUploadFiles} {z : List (String × Bytes)}
    (hrz : store.restrZip = some z) {f : String} (hbf : baseStr f ≠ "")
    (hf : f ∈ z.map Prod.fst) : restrEntry (parse_content store) f := by
  unfold parse_content
  rw [hrz]
  cases hpz : store.pubZip with
  | none => exact parseOne_restr_establish hbf z _ hf
  | some zp => exact parseOne_restr_establish hbf z _ hf

theorem takeWhile_all {q : Char → Bool} :
    ∀ {xs : List Char}, (∀ x ∈ xs, q x = true) → xs.takeWhile q = xs := by
  intro xs
  induction xs with
  | nil => intro _; rfl
  | cons a t ih =>
    intro h
    rw [List.takeWhile_cons, if_pos (h a (List.mem_cons_self _ _))]
    rw [ih (fun x hx => h x (List.mem_cons_of_mem _ hx))]

theorem dropWhile_all {q : Char → Bool} :
    ∀ {xs : List Char}, (∀ x ∈ xs, q x = true) → xs.dropWhile q = [] := by
  intro xs
  induction xs with
  | nil => intro _; rfl
  | cons a t ih =>
    intro h
    rw [List.dropWhile_cons, if_pos (h a (List.mem_cons_self _ _))]
    exact ih (fun x hx => h x (List.mem_cons_of_mem _ hx))

/-- Converse of `goodName_split`: joining a clean directory with a nonempty
slash-free name splits back into exactly those parts. -/
theorem join_split {d b : String} (hd : cleanDir d) (hbne : b ≠ "")
    (hb : ∀ c ∈ b.data, c ≠ '/') :
    dirStr (pathJoin d b) = d ∧ baseStr (pathJoin d b) = b := by
  have hbrev : ∀ c ∈ b.data.reverse, (!(c == '/')) = true := by
    intro c hc
    simp [hb c (List.mem_reverse.mp hc)]
  have hsb : startsWithSlash b.data = false := by
    cases hbd : b.data with
    | nil => exact absurd (String.ext hbd) hbne
    | cons c t =>
      show (c == '/') = false
      simp [hb c (by rw [hbd]; exact List.mem_cons_self _ _)]
  unfold pathJoin
  rw [if_neg (by simp [hsb])]
  rcases hd with hd0 | ⟨hdn, hds, hde⟩
  · rw [if_pos hd0]
    constructor
    · show (⟨dirChars b.data⟩ : String) = d
      unfold dirChars
      rw [dropWhile_all hbrev]
      rw [hd0]
      rfl
    · show (⟨baseChars b.data⟩ : String) = b
      unfold baseChars
      rw [takeWhile_all hbrev, List.reverse_reverse]
  · rw [if_neg hdn, if_neg (by simp [hde])]
    have hdata : (d ++ "/" ++ b).data = d.data ++ '/' :: b.data := by
      show (d.data ++ "/".data) ++ b.data = d.data ++ '/' :: b.data
      rw [List.append_assoc]
      rfl
    have hrev : (d ++ "/" ++ b).data.reverse = b.data.reverse ++ '/' :: d.data.reverse := by
      rw [hdata, List.reverse_append, List.reverse_cons, List.append_assoc]
      rfl
    have hdrev : ∃ c t, d.data.reverse = c :: t ∧ (c == '/') = false := by
      cases hdr : d.data.reverse with
      | nil =>
        exfalso
        apply hdn
        apply String.ext
        have := congrArg List.reverse hdr
        rwa [List.reverse_reverse] at this
      | cons c t =>
        refine ⟨c, t, rfl, ?_⟩
        have hlast : d.data.getLast? = some c := by
          rw [← List.head?_reverse, hdr]
          rfl
        unfold endsWithSlash at hde
        rw [hlast] at hde
        exact hde
    obtain ⟨c, t, hdr, hcns⟩ := hdrev
    have hdrop : (d ++ "/" ++ b).data.reverse.dropWhile (fun ch => !(ch == '/')) =
        '/' :: d.data.reverse := by
      rw [hrev, dropWhile_all_append _ hbrev, List.dropWhile_cons]
      rw [if_neg (by simp)]
    constructor
    · show (⟨dirChars (d ++ "/" ++ b).data⟩ : String) = d
      unfold dirChars
      rw [hdrop]
      have hall : (('/' :: d.data.reverse).all (fun ch => ch == '/')) = false := by
        rw [hdr]
        have hcmem : c ∈ '/' :: c :: t := List.mem_cons_of_mem _ (List.mem_cons_self _ _)
        rw [List.all_eq_false]
        exact ⟨c, hcmem, by simp [hcns]⟩
      rw [if_neg (by simp [hall])]
      rw [List.dropWhile_cons, if_pos (by simp), hdr, List.dropWhile_cons, if_neg (by simp [hcns])]
      rw [← hdr, List.reverse_reverse]
    · show (⟨baseChars (d ++ "/" ++ b).data⟩ : String) = b
      unfold baseChars
      rw [hrev, takeWhile_all_append _ hbrev, List.takeWhile_cons]
      rw [if_neg (by simp), List.append_nil, List.reverse_reverse]

/-- Under the cache invariant, a cached entry whose `path` field equals a
good name `f` necessarily sits at the key pair `(dirname f, basename f)`. -/
theorem cache_entry_unique {ds : Dirs} (hinv : cacheInv ds) {d : String} {cc : DirContent}
    {b : String} {i : UploadPathInfo} (hdc : (d, cc) ∈ ds) (hbi : (b, i) ∈ cc)
    {f : String} (hgf : goodName f) (hpath : i.path = f) :
    d = dirStr f ∧ b = baseStr f := by
  obtain ⟨hp, hbsl, hb0, hbne⟩ := hinv.2.2 (d, cc) hdc (b, i) hbi
  rw [hpath] at hp
  by_cases hb : b = ""
  · exfalso
    apply hgf.2.1
    rw [hp, hb, hb0 hb]
    rfl
  · have hjs := join_split (hbne hb) hb hbsl
    exact ⟨by rw [hp]; exact hjs.1.symm, by rw [hp]; exact hjs.2.symm⟩

/-- The successor-fuel unfolding of `raw_directory_list`. -/
theorem pubList_succ (n : Nat) (store : PublicUploadFiles) (auth : Bool)
    (path : String) (r fo : Bool) :
    public_raw_directory_list (n + 1) store auth path r fo =
      if !raw_path_is_well_formed path then []
      else
        match List.lookup (rstripSlash path) (parse_content store) with
        | none => []
        | some content =>
            (sortByKey content).flatMap
              (fun kv =>
                (if (kv.2.access == "public" || auth) &&
                    (!fo || kv.2.is_file) then [kv.2] else []) ++
                (if r && !kv.2.is_file then
                  public_raw_directory_list n store auth kv.2.path r fo
                else [])) := rfl

/-- Every element of a directory listing passed the access filter: with an
unauthorized caller only `"public"`-classified entries are produced, at any
recursion depth. -/
theorem pubList_access_public :
    ∀ (fuel : Nat) (store : PublicUploadFiles) (path : String) (r fo : Bool)
      (out : UploadPathInfo),
      out ∈ public_raw_directory_list fuel store false path r fo →
      out.access = "public" := by
  intro fuel
  induction fuel with
  | zero => intro store path r fo out h; cases h
  | succ n ih =>
    intro store path r fo out h
    rw [pubList_succ] at h
    by_cases hwf : (!raw_path_is_well_formed path) = true
    · rw [if_pos hwf] at h; cases h
    · rw [if_neg hwf] at h
      cases hl : List.lookup (rstripSlash path) (parse_content store) with
      | none => rw [hl] at h; cases h
      | some content =>
        rw [hl] at h
        rw [List.mem_flatMap] at h
        obtain ⟨kv, _, hmem⟩ := h
        rcases List.mem_append.mp hmem with hmem | hmem
        · by_cases hg : ((kv.2.access == "public" || false) && (!fo || kv.2.is_file)) = true
          · rw [if_pos hg] at hmem
            have : out = kv.2 := by simpa using hmem
            rw [this]
            have : (kv.2.access == "public") = true := by
              rw [Bool.and_eq_true, Bool.or_eq_true] at hg
              rcases hg.1 with h1 | h1
              · exact h1
              · cases h1
            simpa using this
          · rw [if_neg hg] at hmem; cases hmem
        · by_cases hg : (r && !kv.2.is_file) = true
          · rw [if_pos hg] at hmem
            exact ih store kv.2.path r fo out hmem
          · rw [if_neg hg] at hmem; cases hmem

/-- Every element of a directory listing is the value of some cached entry
of `_parse_content`. -/
theorem pubList_mem_cache :
    ∀ (fuel : Nat) (store : PublicUploadFiles) (auth : Bool) (path : String)
      (r fo : Bool) (out : UploadPathInfo),
      out ∈ public_raw_directory_list fuel store auth path r fo →
      ∃ dc, dc ∈ parse_content store ∧ ∃ bi, bi ∈ dc.2 ∧ bi.2 = out := by
  intro fuel
  induction fuel with
  | zero => intro store auth path r fo out h; cases h
  | succ n ih =>
    intro store auth path r fo out h
    rw [pubList_succ] at h
    by_cases hwf : (!raw_path_is_well_formed path) = true
    · rw [if_pos hwf] at h; cases h
    · rw [if_neg hwf] at h
      cases hl : List.lookup (rstripSlash path) (parse_content store) with
      | none => rw [hl] at h; cases h
      | some content =>
        rw [hl] at h
        rw [List.mem_flatMap] at h
        obtain ⟨kv, hkv, hmem⟩ := h
        rcases List.mem_append.mp hmem with hmem | hmem
        · by_cases hg : ((kv.2.access == "public" || auth) && (!fo || kv.2.is_file)) = true
          · rw [if_pos hg] at hmem
            have hout : out = kv.2 := by simpa using hmem
            have hkvc : kv ∈ content := by
              have hperm := List.perm_insertionSort keyLe content
              exact hperm.mem_iff.mp hkv
            exact ⟨(rstripSlash path, content), lookup_mem hl, kv, hkvc, hout.symm⟩
          · rw [if_neg hg] at hmem; cases hmem
        · by_cases hg : (r && !kv.2.is_file) = true
          · rw [if_pos hg] at hmem
            exact ih store auth kv.2.path r fo out hmem
          · rw [if_neg hg] at hmem; cases hmem

theorem rstrip_eq_self {p : String} (h : endsWithSlash p.data = false) :
    rstripSlash p = p := by
  apply String.ext
  show (p.data.reverse.dropWhile (fun c => c == '/')).reverse = p.data
  cases hdr : p.data.reverse with
  | nil =>
    have hpd : p.data = [] := by
      have := congrArg List.reverse hdr
      rwa [List.reverse_reverse] at this
    rw [hpd]
    rfl
  | cons c t =>
    have hc : (c == '/') = false := by
      unfold endsWithSlash at h
      rw [← List.head?_reverse, hdr] at h
      exact h
    rw [List.dropWhile_cons, if_neg (by simp [hc]), ← hdr, List.reverse_reverse]

theorem rstrip_append_slash (p : String) : rstripSlash (p ++ "/") = rstripSlash p := by
  apply String.ext
  show ((p ++ "/").data.reverse.dropWhile (fun c => c == '/')).reverse =
    (p.data.reverse.dropWhile (fun c => c == '/')).reverse
  have hd : (p ++ "/").data.reverse = '/' :: p.data.reverse := by
    show (p.data ++ "/".data).reverse = '/' :: p.data.reverse
    rw [List.reverse_append]
    rfl
  rw [hd, List.dropWhile_cons, if_pos (by simp)]

theorem hasDoubleSlash_append_slash :
    ∀ {l : List Char}, hasDoubleSlash l = false → endsWithSlash l = false →
    hasDoubleSlash (l ++ ['/']) = false := by
  intro l
  induction l with
  | nil => intro _ _; rfl
  | cons a t ih =>
    intro hds hes
    cases t with
    | nil =>
      show ((a == '/') && ('/' == '/') || hasDoubleSlash ['/']) = false
      have ha : (a == '/') = false := hes
      simp [ha, hasDoubleSlash]
    | cons b t2 =>
      rw [hasDoubleSlash_cons_cons] at hds
      rw [Bool.or_eq_false_iff] at hds
      have hes2 : endsWithSlash (b :: t2) = false := by
        unfold endsWithSlash at hes ⊢
        rwa [List.getLast?_cons_cons] at hes
      rw [List.cons_append, List.cons_append, hasDoubleSlash_cons_cons,
        ← List.cons_append, ih hds.2 hes2, hds.1]
      rfl

theorem splitSlash_append_slash :
    ∀ (l : List Char), splitSlash (l ++ ['/']) = splitSlash l ++ [[]] := by
  intro l
  induction l with
  | nil => rfl
  | cons c rest ih =>
    obtain ⟨h0, t0, hht⟩ := List.exists_cons_of_ne_nil (splitSlash_ne_nil rest)
    have hht' : splitSlash (rest ++ ['/']) = h0 :: (t0 ++ [[]]) := by
      rw [ih, hht]
      rfl
    rw [List.cons_append, splitSlash_cons_eq c (rest ++ ['/']) hht',
      splitSlash_cons_eq c rest hht]
    by_cases hc : (c == '/') = true
    · rw [if_pos hc, if_pos hc]
      rfl
    · rw [if_neg hc, if_neg hc]
      rfl

theorem wf_append_slash {f : String} (hf : goodName f) :
    raw_path_is_well_formed (f ++ "/") = true := by
  obtain ⟨hwf, hne, hend⟩ := hf
  obtain ⟨hsw, hds⟩ := wf_no_slashes hwf hne
  have hdata : (f ++ "/").data = f.data ++ ['/'] := rfl
  have hne2 : (f ++ "/") ≠ "" := by
    intro h
    have h2 := congrArg String.data h
    rw [hdata] at h2
    simp at h2
  have hsw2 : startsWithSlash (f ++ "/").data = false := by
    rw [hdata]
    cases hfd : f.data with
    | nil => exact absurd (String.ext hfd) hne
    | cons c t =>
      rw [List.cons_append]
      rw [hfd] at hsw
      exact hsw
  have hds2 : hasDoubleSlash (f ++ "/").data = false := by
    rw [hdata]
    exact hasDoubleSlash_append_slash hds hend
  rw [hdata] at hsw2 hds2
  unfold raw_path_is_well_formed
  rw [if_neg hne2, if_neg (by simp [hsw2, hds2])]
  unfold raw_path_is_well_formed at hwf
  rw [if_neg hne, if_neg (by simp [hsw, hds])] at hwf
  show (splitSlash (f.data ++ ['/'])).all _ = true
  rw [splitSlash_append_slash, List.all_append]
  rw [hwf]
  rfl

theorem exists_restricted_false {store : PublicUploadFiles} {f : String}
    (hgf : goodName f) (hre : restrEntry (parse_content store) f) :
    public_raw_path_exists store false f = false := by
  obtain ⟨c, i, hc, hi, hacc⟩ := hre
  have hend := hgf.2.2
  have hbne : baseStr f ≠ "" := mk_ne_empty_of_ne_nil (goodName_split hgf).2.1
  simp only [public_raw_path_exists, hgf.1, rstrip_eq_self hend, hc]
  simp [hbne, hi, hacc]

theorem exists_restricted_slash_false {store : PublicUploadFiles} {f : String}
    (hgf : goodName f) (hre : restrEntry (parse_content store) f) :
    public_raw_path_exists store false (f ++ "/") = false := by
  obtain ⟨c, i, hc, hi, hacc⟩ := hre
  have hend := hgf.2.2
  have hbne : baseStr f ≠ "" := mk_ne_empty_of_ne_nil (goodName_split hgf).2.1
  simp only [public_raw_path_exists, wf_append_slash hgf, rstrip_append_slash,
    rstrip_eq_self hend, hc]
  simp [hbne, hi, hacc]

theorem is_file_restricted_false {store : PublicUploadFiles} {f : String}
    (hgf : goodName f) (hre : restrEntry (parse_content store) f) :
    public_raw_path_is_file store false f = false := by
  obtain ⟨c, i, hc, hi, hacc⟩ := hre
  have hbne : baseStr f ≠ "" := mk_ne_empty_of_ne_nil (goodName_split hgf).2.1
  have hcne : c.isEmpty = false := by
    cases c with
    | nil => simp [List.lookup] at hi
    | cons kv t => rfl
  simp only [public_raw_path_is_file, hgf.1, hc]
  simp [hbne, hi, hacc, hcne]

/-- A restricted-classified cached file never appears in any unauthorized
directory listing: the unique cache entry at its key pair has access
`"restricted"`, and all listed entries are `"public"`. -/
theorem pubList_no_restricted_path {store : PublicUploadFiles} (hgood : goodStore store)
    {f : String} (hgf : goodName f) (hre : restrEntry (parse_content store) f)
    (fuel : Nat) (path : String) (r fo : Bool) (out : UploadPathInfo)
    (hmem : out ∈ public_raw_directory_list fuel store false path r fo) :
    out.path ≠ f := by
  intro hp
  have hacc := pubList_access_public fuel store path r fo out hmem
  obtain ⟨dc, hdc, bi, hbi, hbiout⟩ := pubList_mem_cache fuel store false path r fo out hmem
  have hinv := parse_content_inv store hgood
  have hbp : bi.2.path = f := by rw [hbiout, hp]
  obtain ⟨hd, hb⟩ := cache_entry_unique hinv hdc hbi hgf hbp
  obtain ⟨c, i, hc, hi, hir⟩ := hre
  have h1 : List.lookup dc.1 (parse_content store) = some dc.2 := mem_eq_lookup hinv.1 hdc
  rw [hd, hc] at h1
  injection h1 with h1
  have h2 : List.lookup bi.1 dc.2 = some bi.2 := mem_eq_lookup (hinv.2.1 dc hdc) hbi
  rw [hb, ← h1, hi] at h2
  injection h2 with h2
  rw [← hbiout, ← h2, hir] at hacc
  simp at hacc

/-- Claim C1 counterexample: `"POTCAR"` is an `always_restricted` name, and
with the default (unauthorized) access a store holding `POTCAR` in its
*public* raw zip refuses `raw_file` — yet `raw_directory_list` still lists
the entry, with its true size and access `"public"`: the restriction list is
not consulted by the listing path. -/
theorem C1_counterexample :
    always_restricted "POTCAR" = true ∧
    public_raw_file ⟨some [("POTCAR", [0])], none, none, none⟩ false "POTCAR" =
      .error .restricted ∧
    public_raw_directory_list 2 ⟨some [("POTCAR", [0])], none, none, none⟩ false ""
      false false =
      [⟨"", false, -1, "public"⟩, ⟨"POTCAR", true, 1, "public"⟩] := by
  decide

/-- Claim C1 (corrected): with an unauthorized caller, `raw_file` and
`raw_file_size` only ever serve a member of the public zip whose name is not
`always_restricted`, `read_archive` only ever opens the public archive
bucket, and every directory-listing element is `"public"`-classified; a file
stored in the restricted zip is never listed under any fuel, path or flags,
and `raw_path_exists` (with and without a trailing slash) and
`raw_path_is_file` deny it. The `always_restricted` list, however, guards
only `raw_file`/`raw_file_size` — the listing path does not consult it (see
the counterexample). -/
theorem C1_restricted_enforcement (store : PublicUploadFiles)
    (hgood : goodStore store) :
    (∀ f c, public_raw_file store false f = .ok c →
        zfindO store.pubZip f = some c ∧ always_restricted f = false) ∧
    (∀ f n, public_raw_file_size store false f = .ok n →
        (∃ c, zfindO store.pubZip f = some c ∧ c.length = n) ∧
        always_restricted f = false) ∧
    (∀ cid b, public_read_archive store false cid = .ok b → b = "public") ∧
    (∀ fuel path r fo out,
        out ∈ public_raw_directory_list fuel store false path r fo →
        out.access = "public") ∧
    (∀ z f, store.restrZip = some z → f ∈ z.map Prod.fst →
        (∀ fuel path r fo out,
            out ∈ public_raw_directory_list fuel store false path r fo →
            out.path ≠ f) ∧
        public_raw_path_exists store false f = false ∧
        public_raw_path_exists store false (f ++ "/") = false ∧
        public_raw_path_is_file store false f = false) := by
  refine ⟨?_, ?_, ?_, ?_, ?_⟩
  · intro f c h
    unfold public_raw_file at h
    cases hz : zfindO store.pubZip f with
    | some c' =>
      rw [hz] at h
      by_cases har : always_restricted f = true
      · simp [har] at h
      · simp [har] at h
        exact ⟨by rw [h], Bool.eq_false_iff.mpr har⟩
    | none =>
      rw [hz] at h
      cases hz2 : zfindO store.restrZip f with
      | some c' => rw [hz2] at h; simp at h
      | none => rw [hz2] at h; simp at h
  · intro f n h
    unfold public_raw_file_size at h
    cases hz : zfindO store.pubZip f with
    | some c' =>
      rw [hz] at h
      by_cases har : always_restricted f = true
      · simp [har] at h
      · simp [har] at h
        exact ⟨⟨c', rfl, h⟩, Bool.eq_false_iff.mpr har⟩
    | none =>
      rw [hz] at h
      cases hz2 : zfindO store.restrZip f with
      | some c' => rw [hz2] at h; simp at h
      | none => rw [hz2] at h; simp at h
  · intro cid b h
    unfold public_read_archive at h
    cases hap : store.archivePub with
    | some arch =>
      rw [hap] at h
      by_cases hlk : (List.lookup cid arch).isSome = true
      · simp [hlk] at h
        exact h.symm
      · simp only [hlk, if_false, Bool.false_eq_true] at h
        cases har : store.archiveRestr with
        | some arch2 =>
          rw [har] at h
          by_cases hlk2 : (List.lookup cid arch2).isSome = true
          · simp [hlk2] at h
          · simp [hlk2] at h
        | none => rw [har] at h; simp at h
    | none =>
      rw [hap] at h
      cases har : store.archiveRestr with
      | some arch2 =>
        rw [har] at h
        by_cases hlk2 : (List.lookup cid arch2).isSome = true
        · simp [hlk2] at h
        · simp [hlk2] at h
      | none => rw [har] at h; simp at h
  · exact fun fuel path r fo out h => pubList_access_public fuel store path r fo out h
  · intro z f hrz hf
    have hgf : goodName f := hgood.2 z hrz f hf
    have hbne : baseStr f ≠ "" := mk_ne_empty_of_ne_nil (goodName_split hgf).2.1
    have hre := parse_content_restr hrz hbne hf
    exact ⟨fun fuel path r fo out hmem =>
        pubList_no_restricted_path hgood hgf hre fuel path r fo out hmem,
      exists_restricted_false hgf hre, exists_restricted_slash_false hgf hre,
      is_file_restricted_false hgf hre⟩

theorem C1_restricted_enforcement_witness :
    goodStore ⟨some [("a", [0])], some [("d/r", [1, 2])], none, none⟩ ∧
    public_raw_path_exists ⟨some [("a", [0])], some [("d/r", [1, 2])], none, none⟩
      false "d/r" = false := by
  have hg : goodStore ⟨some [("a", [0])], some [("d/r", [1, 2])], none, none⟩ :=
    ⟨by rintro z hz n hn; cases hz; revert hn; revert n; decide,
     by rintro z hz n hn; cases hz; revert hn; revert n; decide⟩
  exact ⟨hg, ((C1_restricted_enforcement _ hg).2.2.2.2 [("d/r", [1, 2])] "d/r" rfl
    (by decide)).2.1⟩
